import Mathlib

/-!
# Verification of the gogit storage engine

Shallow embedding of `cmd/gogit.go`, a minimal git-like version-control
engine, together with proofs about its object store (SHA-1 hashing, LZW
compression, temp-file/rename writes), tree snapshot builder, commit
chain, ref management and checkout reconciliation.

Modelling conventions:
* Bytes are `Nat` values (`< 256` where it matters).
* The on-disk state is a finite map from path strings to byte lists,
  plus a set of "broken" paths on which `open`/`create` fail with an
  I/O error (this models the possibility of real I/O failures, which
  the Go code has to handle).  `filepath.Join` cleaning is modelled by
  using the canonical path spelling `.gat/...` everywhere (Go's
  `./.gat/X` and `.gat/X` denote the same file).
* Functions that can panic in Go (slice out of range, nil-pointer
  dereference) or call `log.Fatal` return distinguished `crash` error
  values; crash values are propagated without running any recovery
  code, mirroring the fact that the Go process dies at that point.
* Random temp-file names are passed in explicitly (the Go code draws
  them from `randomString`).
-/
set_option maxHeartbeats 1000000
set_option maxRecDepth 8192
/-- Error/outcome values for the engine.  `ioError`, `hashError` and
`corruptObject` are errors the Go code returns to its caller;
`crashSliceRange` models a Go runtime panic from slicing (`hash[:2]` on a
short string), `crashNilDeref` a nil-pointer-dereference panic,
`crashFatal` a `log.Fatal` call (process exit), and `outOfFuel` is a
model artifact for bounding the unbounded Go loops/recursions. -/
inductive GitError where
  | ioError : GitError
  | hashError : GitError
  | corruptObject : GitError
  | crashSliceRange : GitError
  | crashNilDeref : GitError
  | crashFatal : GitError
  | outOfFuel : GitError
deriving DecidableEq

/-- Does this error value model a crash (panic or `log.Fatal`) rather than
an error returned to the caller?  Crashes kill the Go process, so no code
after the crashing call runs. -/
def GitError.isCrash : GitError → Bool
  | .crashSliceRange => true
  | .crashNilDeref => true
  | .crashFatal => true
  | _ => false

/-- Go's `if err != nil { return err }` pattern: propagate an error,
continue with the value otherwise. -/
def orE {α β : Type} (x : Except GitError α) (f : α → Except GitError β) :
    Except GitError β :=
  match x with
  | .error e => .error e
  | .ok a => f a

/-- Turn an optional value into success or the given error. -/
def orO {α β : Type} (x : Option α) (e : GitError) (f : α → Except GitError β) :
    Except GitError β :=
  match x with
  | none => .error e
  | some a => f a

/-- The flat file store: association list from path to content, plus the
set of paths on which opening/creating a file fails with an I/O error. -/
structure FS where
  files : List (String × List Nat)
  broken : List String
deriving DecidableEq

/-- Association-list lookup for the file map. -/
def lookupPath : List (String × List Nat) → String → Option (List Nat)
  | [], _ => none
  | e :: es, p => if e.1 = p then some e.2 else lookupPath es p

/-- Remove every binding of a path from the file map. -/
def erasePath : List (String × List Nat) → String → List (String × List Nat)
  | [], _ => []
  | e :: es, p => if e.1 = p then erasePath es p else e :: erasePath es p

/-- Look a path up in the file map (no I/O failure modelling). -/
def fsRead (fs : FS) (p : String) : Option (List Nat) :=
  lookupPath fs.files p

/-- Open and read a file: fails with `ioError` if the path is broken or
the file does not exist (Go `os.Open` / `os.ReadFile` failure). -/
def fsOpen (fs : FS) (p : String) : Except GitError (List Nat) :=
  if p ∈ fs.broken then .error .ioError
  else
    match fsRead fs p with
    | some v => .ok v
    | none => .error .ioError

/-- Write (create/truncate) a file unconditionally in the map. -/
def fsWrite (fs : FS) (p : String) (v : List Nat) : FS :=
  ⟨(p, v) :: erasePath fs.files p, fs.broken⟩

/-- Create/open a file for writing: Go `os.Create` / `os.OpenFile` with
`O_CREATE`, which fails on a broken path. -/
def fsWriteE (fs : FS) (p : String) (v : List Nat) : Except GitError FS :=
  if p ∈ fs.broken then .error .ioError else .ok (fsWrite fs p v)

/-- Remove a file from the map (`os.Remove`). -/
def fsRemove (fs : FS) (p : String) : FS :=
  ⟨erasePath fs.files p, fs.broken⟩

/-- `os.Rename src dst`: move the content of `src` to `dst`. -/
def fsRename (fs : FS) (src dst : String) : Except GitError FS :=
  match fsRead fs src with
  | none => .error .ioError
  | some v => .ok (fsWrite (fsRemove fs src) dst v)

/-- Bytes of a string, one `Nat` per character (the sources only ever
store ASCII text, for which this agrees with UTF-8). -/
def strToBytes (s : String) : List Nat := s.data.map Char.toNat

/-- Chars of a byte list (inverse of `strToBytes` on valid data). -/
def bytesToChars (l : List Nat) : List Char := l.map Char.ofNat

/-! ## LZW codec

`createBlob` compresses with Go's `compress/lzw` (`lzw.LSB, 8`) and
`readObjectFile` decompresses with the matching reader.  The codec is an
external library; it is modelled here at the code-sequence level as
standard LZW: codes below 256 are literal bytes, code `256 + i` denotes
the `i`-th dictionary extension, the decoder uses the usual
"pending entry" rule for a code one past its dictionary (Go's
`code == d.hi` case) and rejects larger codes (Go's invalid-code error).
Bit packing, the clear/EOF framing codes and the 4096-entry table reset
are framing details that do not affect the decompress-after-compress
behaviour modelled here. -/
/-- Index of the first occurrence of `w` in the extension dictionary. -/
def idxOf (ext : List (List Nat)) (w : List Nat) : Nat :=
  match ext with
  | [] => 0
  | e :: es => if e = w then 0 else idxOf es w + 1

/-- The code the LZW encoder emits for the current string `w`:
a literal for single bytes, `256 + index` for dictionary entries. -/
def lzwCodeOf (ext : List (List Nat)) (w : List Nat) : Nat :=
  match w with
  | [s] => s
  | _ => 256 + idxOf ext w

/-- LZW encoder loop: `ext` is the list of dictionary extensions made so
far, `w` the current match.  For each input byte `c`: extend the match
while `w ++ [c]` is in the dictionary, otherwise emit the code of `w`,
add `w ++ [c]` to the dictionary and restart from `c`. -/
def lzwEncA (ext : List (List Nat)) (w : List Nat) : List Nat → List Nat
  | [] => if w = [] then [] else [lzwCodeOf ext w]
  | c :: rest =>
    if w = [] ∨ (w ++ [c]) ∈ ext then lzwEncA ext (w ++ [c]) rest
    else lzwCodeOf ext w :: lzwEncA (ext ++ [w ++ [c]]) [c] rest

/-- LZW compression of a byte sequence. -/
def lzwEncode (input : List Nat) : List Nat := lzwEncA [] [] input

/-- Decoder-side meaning of one code: literal, dictionary entry, the
pending ("KwKwK") entry, or invalid. -/
def lzwEntry (ext : List (List Nat)) (prev : List Nat) (k : Nat) : Option (List Nat) :=
  if k < 256 then some [k]
  else if h : k - 256 < ext.length then some (ext.get ⟨k - 256, h⟩)
  else if k - 256 = ext.length then some (prev ++ [prev.headD 0])
  else none

/-- LZW decoder loop: mirrors the encoder's dictionary construction,
adding `prev ++ [head of current entry]` after each decoded code. -/
def lzwDecA (ext : List (List Nat)) (prev : List Nat) : List Nat → Option (List Nat)
  | [] => some []
  | k :: ks =>
    (lzwEntry ext prev k).bind fun entry =>
      (lzwDecA (ext ++ [prev ++ [entry.headD 0]]) entry ks).map fun rest => entry ++ rest

/-- LZW decompression.  The first code of a valid stream is a literal. -/
def lzwDecode : List Nat → Option (List Nat)
  | [] => some []
  | k :: ks =>
    if k < 256 then (lzwDecA [] [k] ks).map fun rest => k :: rest
    else none

/-! ## SHA-1 and hex encoding

`createBlob` hashes file content with `crypto/sha1` and hex-encodes the
20-byte digest with `encoding/hex`.  Both are external libraries; SHA-1
is modelled here in full (FIPS 180 padding, 80-round compression) over
`Nat` with explicit `% 2^32` reductions, and hex encoding as two hex
digits per byte. -/
/-- 32-bit truncation. -/
def m32 (x : Nat) : Nat := x % 4294967296

/-- 32-bit left rotation. -/
def rotl32 (x n : Nat) : Nat := m32 (x <<< n) + (m32 x) >>> (32 - n)

/-- Big-endian byte serialization of `x`, `k` bytes wide. -/
def natToBytesBE : Nat → Nat → List Nat
  | 0, _ => []
  | k + 1, x => natToBytesBE k (x >>> 8) ++ [x % 256]

/-- FIPS 180 message padding: append `0x80`, zero bytes to 56 mod 64,
then the bit length as 8 big-endian bytes. -/
def sha1Pad (msg : List Nat) : List Nat :=
  msg ++ [128] ++ List.replicate ((64 + 56 - (msg.length + 1) % 64) % 64) 0
    ++ natToBytesBE 8 (msg.length * 8)

/-- Split into 64-byte blocks. -/
def chunks64 (l : List Nat) : List (List Nat) :=
  if l = [] then [] else l.take 64 :: chunks64 (l.drop 64)
termination_by l.length
decreasing_by
  rename_i h
  have : 0 < l.length := List.length_pos.mpr h
  simp only [List.length_drop]
  omega

/-- The 16 initial 32-bit words of a 64-byte block (big endian). -/
def sha1Words16 (block : List Nat) : List Nat :=
  (List.range 16).map fun i =>
    block.getD (4 * i) 0 <<< 24 + block.getD (4 * i + 1) 0 <<< 16
      + block.getD (4 * i + 2) 0 <<< 8 + block.getD (4 * i + 3) 0

/-- Extend 16 words to 80 by the SHA-1 recurrence. -/
def sha1Expand (ws : List Nat) : Nat → List Nat
  | 0 => ws
  | n + 1 =>
    sha1Expand
      (ws ++ [rotl32 (Nat.xor (Nat.xor (ws.getD (ws.length - 3) 0) (ws.getD (ws.length - 8) 0))
        (Nat.xor (ws.getD (ws.length - 14) 0) (ws.getD (ws.length - 16) 0))) 1]) n

/-- The five-word SHA-1 state. -/
structure Sha1State where
  a : Nat
  b : Nat
  c : Nat
  d : Nat
  e : Nat

/-- One SHA-1 round. -/
def sha1Round (st : Sha1State) (i w : Nat) : Sha1State :=
  let f :=
    if i < 20 then Nat.lor (Nat.land st.b st.c) (Nat.land (4294967295 - st.b) st.d)
    else if i < 40 then Nat.xor (Nat.xor st.b st.c) st.d
    else if i < 60 then
      Nat.lor (Nat.lor (Nat.land st.b st.c) (Nat.land st.b st.d)) (Nat.land st.c st.d)
    else Nat.xor (Nat.xor st.b st.c) st.d
  let k :=
    if i < 20 then 1518500249
    else if i < 40 then 1859775393
    else if i < 60 then 2400959708
    else 3395469782
  let temp := m32 (rotl32 st.a 5 + f + st.e + k + w)
  ⟨temp, st.a, rotl32 st.b 30, st.c, st.d⟩

/-- Process one 64-byte block. -/
def sha1Block (st : Sha1State) (block : List Nat) : Sha1State :=
  let ws := sha1Expand (sha1Words16 block) 64
  let r := (ws.foldl (fun p w => (p.1 + 1, sha1Round p.2 p.1 w)) (0, st)).2
  ⟨m32 (st.a + r.a), m32 (st.b + r.b), m32 (st.c + r.c), m32 (st.d + r.d), m32 (st.e + r.e)⟩

/-- The SHA-1 digest of a byte sequence: 20 bytes. -/
def sha1Hash (msg : List Nat) : List Nat :=
  let st := (chunks64 (sha1Pad msg)).foldl sha1Block
    ⟨1732584193, 4023233417, 2562383102, 271733878, 3285377520⟩
  natToBytesBE 4 st.a ++ natToBytesBE 4 st.b ++ natToBytesBE 4 st.c
    ++ natToBytesBE 4 st.d ++ natToBytesBE 4 st.e

/-- One hexadecimal digit character. -/
def hexDigit (n : Nat) : Char :=
  if n < 10 then Char.ofNat (48 + n) else Char.ofNat (87 + n)

/-- Hex encoding of a byte list, as a string (Go `hex.EncodeToString`). -/
def hexEncodeBytes (bytes : List Nat) : String :=
  String.mk (bytes.flatMap fun b => [hexDigit (b / 16), hexDigit (b % 16)])

/-! ## Object store

`getObjectPath`, `createBlob` and `readObjectFile` from `cmd/gogit.go`.
`BASEDIR` is `"./.gat"` in the source; paths are modelled in the
canonical cleaned spelling `.gat/...` (Go's `filepath.Join` cleaning
makes `./.gat/X` and `.gat/X` the same file).  `os.MkdirAll` is a no-op
in the flat file-map model.  Go string slicing on ASCII hashes is
character slicing. -/
/-- Repository metadata directory (source constant `BASEDIR`). -/
def BASEDIR : String := ".gat"

/-- Directory names skipped by tree building and pruning. -/
def IGNORE_FOLDERS : List String := [".git", ".gat"]

/-- First `n` characters of a string (Go `s[:n]` on ASCII). -/
def strTake (s : String) (n : Nat) : String := String.mk (s.data.take n)

/-- All but the first `n` characters (Go `s[n:]` on ASCII). -/
def strDrop (s : String) (n : Nat) : String := String.mk (s.data.drop n)

/-- Path of an object for a given hash: `objects/<hash[0:2]>/<hash[2:]>`.
Go slicing panics when the hash has fewer than 2 bytes
(`crashSliceRange`). -/
def getObjectPath (hash : String) : Except GitError String :=
  if 2 ≤ hash.length then
    .ok (BASEDIR ++ "/objects/" ++ strTake hash 2 ++ "/" ++ strDrop hash 2)
  else .error .crashSliceRange

/-- Folder of an object for a given hash: `objects/<hash[0:2]>`. -/
def getObjectFolderPath (hash : String) : Except GitError String :=
  if 2 ≤ hash.length then .ok (BASEDIR ++ "/objects/" ++ strTake hash 2)
  else .error .crashSliceRange

/-- The write half of `createBlob`, after the source file has been read:
create a temp file, LZW-compress the content into it while hashing,
defensively check the hex digest length, create the object subfolder
(no-op here) and rename the temp file to the object path. -/
def storeObject (fs : FS) (content : List Nat) (tempName : String) :
    Except GitError (String × FS) :=
  if tempName ∈ fs.broken then .error .ioError
  else if (hexEncodeBytes (sha1Hash content)).length ≠ 40 then .error .hashError
  else
    orE (getObjectPath (hexEncodeBytes (sha1Hash content))) fun objPath =>
      orE (fsRename (fsWrite fs tempName (lzwEncode content)) tempName objPath) fun fs2 =>
        .ok (hexEncodeBytes (sha1Hash content), fs2)

/-- `createBlob`: read the file at `path`, then hash/compress/store it. -/
def createBlob (fs : FS) (path tempName : String) : Except GitError (String × FS) :=
  orE (fsOpen fs path) fun content => storeObject fs content tempName

/-- `readObjectFile`: open the file at `path` and LZW-decompress it. -/
def readObjectFile (fs : FS) (path : String) : Except GitError (List Nat) :=
  orE (fsOpen fs path) fun data =>
    orO (lzwDecode data) .corruptObject fun d => .ok d

/-! ## Commits, refs and HEAD -/
/-- String of a byte list. -/
def bytesToStr (l : List Nat) : String := String.mk (bytesToChars l)

/-- The commit record (source `Commit` struct).  `Timestamp` is Go
`int64`; the model uses `Int` (the source never overflows it). -/
structure Commit where
  TreeHash : String
  ParentCommit : String
  Message : String
  Timestamp : Int
deriving DecidableEq

/-- Modelled from the spec: the source serializes `Commit` with
`encoding/gob`, a runtime-reflective external library; the spec requires
an explicit self-describing field encoding.  A string field is its
length followed by its character codes. -/
def encString (s : String) : List Nat := s.length :: s.data.map Char.toNat

/-- Modelled from the spec: decoder for `encString`, returning the
remainder of the input. -/
def decString (l : List Nat) : Option (String × List Nat) :=
  match l with
  | [] => none
  | n :: rest =>
    if n ≤ rest.length then some (String.mk ((rest.take n).map Char.ofNat), rest.drop n)
    else none

/-- Modelled from the spec: an integer field is a sign byte and a
magnitude. -/
def encInt (i : Int) : List Nat := [if i < 0 then 1 else 0, i.natAbs]

/-- Modelled from the spec: decoder for `encInt`. -/
def decInt (l : List Nat) : Option (Int × List Nat) :=
  match l with
  | s :: m :: rest => some (if s = 1 then -(m : Int) else (m : Int), rest)
  | _ => none

/-- Modelled from the spec: serialization of a `Commit` record
(`gob.Encoder.Encode` in the source). -/
def gobEncodeCommit (c : Commit) : List Nat :=
  encString c.TreeHash ++ encString c.ParentCommit ++ encString c.Message
    ++ encInt c.Timestamp

/-- Modelled from the spec: deserialization of a `Commit` record
(`gob.Decoder.Decode` in the source); fails on malformed input. -/
def gobDecodeCommit (l : List Nat) : Option Commit :=
  (decString l).bind fun tl =>
    (decString tl.2).bind fun pl =>
      (decString pl.2).bind fun ml =>
        (decInt ml.2).bind fun il =>
          if il.2 = [] then some ⟨tl.1, pl.1, ml.1, il.1⟩ else none

/-- Path of the HEAD file. -/
def headPath : String := BASEDIR ++ "/HEAD"

/-- Path of the default branch ref file. -/
def mainRefPath : String := BASEDIR ++ "/refs/heads/main"

/-- `getCurrentHead`: read HEAD, then read the branch ref file it points
to; its content (a commit hash, possibly empty) is returned. -/
def getCurrentHead (fs : FS) : Except GitError String :=
  orE (fsOpen fs headPath) fun content =>
    orE (fsOpen fs (BASEDIR ++ "/" ++ bytesToStr content)) fun branchContent =>
      .ok (bytesToStr branchContent)

/-- `getCurrentBranch`: strip the `refs/heads/` prefix from HEAD's
content by slicing off the first 11 bytes; Go panics when the content is
shorter than that. -/
def getCurrentBranch (fs : FS) : Except GitError String :=
  orE (fsOpen fs headPath) fun content =>
    if 11 ≤ (bytesToStr content).length then .ok (strDrop (bytesToStr content) 11)
    else .error .crashSliceRange

/-- `updateCurrentHead`: overwrite the active branch's ref file with the
new commit hash. -/
def updateCurrentHead (fs : FS) (newCommitHash : String) : Except GitError FS :=
  orE (fsOpen fs headPath) fun content =>
    fsWriteE fs (BASEDIR ++ "/" ++ bytesToStr content) (strToBytes newCommitHash)

/-- `switchHead`: rewrite HEAD to point at the named branch's ref file,
without validating the branch. -/
def switchHead (fs : FS) (branchName : String) : Except GitError FS :=
  fsWriteE fs headPath (strToBytes ("refs/heads/" ++ branchName))

/-- Go `os.OpenFile(p, O_RDWR|O_CREATE, 0644)`: create an empty file if
the path is absent. -/
def touchFile (fs : FS) (p : String) : Except GitError FS :=
  if p ∈ fs.broken then .error .ioError
  else
    match fsRead fs p with
    | some _ => .ok fs
    | none => .ok (fsWrite fs p [])

/-- `prepareDirs`: create the repository layout (directory creation is a
no-op in the flat model), create `refs/heads/main` and `HEAD` if absent,
and initialize an empty HEAD to point at `refs/heads/main`. -/
def prepareDirs (fs : FS) : Except GitError FS :=
  orE (touchFile fs mainRefPath) fun fs1 =>
    orE (touchFile fs1 headPath) fun fs2 =>
      match fsRead fs2 headPath with
      | some content =>
        if content = [] then .ok (fsWrite fs2 headPath (strToBytes "refs/heads/main"))
        else .ok fs2
      | none => .ok fs2

/-- `readCommit`: load the object file for the hash and gob-decode it. -/
def readCommit (fs : FS) (commitHash : String) : Except GitError Commit :=
  orE (getObjectPath commitHash) fun p =>
    orE (readObjectFile fs p) fun content =>
      orO (gobDecodeCommit content) .corruptObject fun c => .ok c

/-- The history walk of `printLog`: read a commit, follow
`ParentCommit` while it is non-empty.  `fuel` bounds the unbounded Go
loop (the walk's result is fuel-independent once the chain fits). -/
def walkHistory (fs : FS) : Nat → String → Except GitError (List (String × Commit))
  | 0, _ => .error .outOfFuel
  | fuel + 1, hash =>
    orE (readCommit fs hash) fun commit =>
      if 0 < commit.ParentCommit.length then
        orE (walkHistory fs fuel commit.ParentCommit) fun rest =>
          .ok ((hash, commit) :: rest)
      else .ok [(hash, commit)]

/-- `printLog`: walk the history starting from the current head. -/
def printLog (fs : FS) (fuel : Nat) : Except GitError (List (String × Commit)) :=
  orE (getCurrentHead fs) fun h => walkHistory fs fuel h

/-- `createCommit`: build the commit record with the current time,
gob-encode it into a temp file, store that file as a blob, and advance
the current branch.  When `createBlob` fails it returns a nil hash
pointer, and the unconditional `updateCurrentHead(*commitHash)` call
dereferences it: a runtime panic (`crashNilDeref`).  The error returned
by `updateCurrentHead` itself is discarded by the source. -/
def createCommit (fs : FS) (treeHash parentCommitHash message : String) (now : Int)
    (temp1 temp2 : String) : Except GitError (String × FS) :=
  orE (fsWriteE fs temp1 (gobEncodeCommit ⟨treeHash, parentCommitHash, message, now⟩))
    fun fs1 =>
      match createBlob fs1 temp1 temp2 with
      | .error _ => .error .crashNilDeref
      | .ok (commitHash, fs2) =>
        match updateCurrentHead fs2 commitHash with
        | .ok fs3 => .ok (commitHash, fs3)
        | .error _ => .ok (commitHash, fs2)

/-- Root commit used by the C3 witness. -/
def wCommitA : Commit := ⟨"tt", "", "m1", 0⟩

/-- Child commit used by the C3 witness (parent hash `"aa"`). -/
def wCommitB : Commit := ⟨"tt", "aa", "m2", 1⟩

/-- Concrete store holding the two witness commits at hashes `"aa"` and
`"bb"`. -/
def wFS : FS :=
  ⟨[(BASEDIR ++ "/objects/" ++ strTake "bb" 2 ++ "/" ++ strDrop "bb" 2,
      lzwEncode (gobEncodeCommit wCommitB)),
    (BASEDIR ++ "/objects/" ++ strTake "aa" 2 ++ "/" ++ strDrop "aa" 2,
      lzwEncode (gobEncodeCommit wCommitA))], []⟩

deriving instance DecidableEq for Except

/-! ## Tree objects -/
/-- Go `strings.Split` with a one-character separator. -/
def splitOnChar (c : Char) : List Char → List (List Char)
  | [] => [[]]
  | x :: xs =>
    if x = c then [] :: splitOnChar c xs
    else
      match splitOnChar c xs with
      | [] => [[x]]
      | h :: t => (x :: h) :: t

/-- The `readTree` parsing loop: split each line on tabs, keep exactly
the lines with three fields, skip every other line (`continue` in the
source). -/
def parseTreeLoop : List (List Char) → List (List String)
  | [] => []
  | line :: rest =>
    if (splitOnChar '\t' line).length = 3 then
      ((splitOnChar '\t' line).map fun l => String.mk l) :: parseTreeLoop rest
    else parseTreeLoop rest

/-- `readTree`: load the object file for the hash, split its text into
lines and tab-separated fields. -/
def readTree (fs : FS) (treeHash : String) : Except GitError (List (List String)) :=
  orE (getObjectPath treeHash) fun p =>
    orE (readObjectFile fs p) fun content =>
      .ok (parseTreeLoop (splitOnChar '\n' (bytesToChars content)))

/-- A tree object whose text is the single malformed line `"garbage"`
(one field, not three). -/
def malformedTreeFS : FS :=
  ⟨[(BASEDIR ++ "/objects/" ++ strTake "ab" 2 ++ "/" ++ strDrop "ab" 2,
      lzwEncode (strToBytes "garbage"))], []⟩

/-! ## Working directory and the checkout engine

The working directory is modelled as a tree of named nodes; the checkout
engine (`switchDirToCommit`, `switchTreeToCommit`, `switchToCommit`,
`checkoutBranch`) reads tree/blob objects from the store and mutates the
working tree.  Rows are the `[][]string` values produced by `readTree`
(always three fields there; the source would panic on shorter rows). -/
/-- A node of the working directory: a file with content, or a directory
with its listing. -/
inductive FsNode where
  | file : List Nat → FsNode
  | dir : List (String × FsNode) → FsNode

mutual

def decEqFsNode : (a b : FsNode) → Decidable (a = b)
  | .file c1, .file c2 =>
    match decEq c1 c2 with
    | isTrue h => isTrue (by rw [h])
    | isFalse h => isFalse (by intro hc; injection hc with h1; exact h h1)
  | .file _, .dir _ => isFalse (by intro hc; cases hc)
  | .dir _, .file _ => isFalse (by intro hc; cases hc)
  | .dir l1, .dir l2 =>
    match decEqFsList l1 l2 with
    | isTrue h => isTrue (by rw [h])
    | isFalse h => isFalse (by intro hc; injection hc with h1; exact h h1)

def decEqFsList : (a b : List (String × FsNode)) → Decidable (a = b)
  | [], [] => isTrue rfl
  | [], _ :: _ => isFalse (by intro hc; cases hc)
  | _ :: _, [] => isFalse (by intro hc; cases hc)
  | (n1, x1) :: r1, (n2, x2) :: r2 =>
    match decEq n1 n2 with
    | isFalse h1 =>
      isFalse (by
        intro hc
        injection hc with hh ht
        injection hh with ha hb
        exact h1 ha)
    | isTrue h1 =>
      match decEqFsNode x1 x2 with
      | isFalse h2 =>
        isFalse (by
          intro hc
          injection hc with hh ht
          injection hh with ha hb
          exact h2 hb)
      | isTrue h2 =>
        match decEqFsList r1 r2 with
        | isFalse h3 =>
          isFalse (by
            intro hc
            injection hc with hh ht
            exact h3 ht)
        | isTrue h3 => isTrue (by rw [h1, h2, h3])

end

instance : DecidableEq FsNode := decEqFsNode

instance : DecidableEq (List (String × FsNode)) := decEqFsList

/-- Field 0 of a tree row: the kind (`"blob"` or `"tree"`). -/
def rowKind (r : List String) : String := r.getD 0 ""

/-- Field 1 of a tree row: the object hash. -/
def rowHash (r : List String) : String := r.getD 1 ""

/-- Field 2 of a tree row: the entry name. -/
def rowName (r : List String) : String := r.getD 2 ""

/-- Look up a name in a directory listing. -/
def findEntry : List (String × FsNode) → String → Option FsNode
  | [], _ => none
  | e :: es, nm => if e.1 = nm then some e.2 else findEntry es nm

/-- Create/truncate a file entry in a directory listing. -/
def writeFileEntry : List (String × FsNode) → String → List Nat → List (String × FsNode)
  | [], nm, c => [(nm, .file c)]
  | e :: es, nm, c => if e.1 = nm then (nm, .file c) :: es else e :: writeFileEntry es nm c

/-- The prune pass of `switchDirToCommit`: walk the live entries; skip
reserved directories; delete (drop) a directory with no matching
`tree` row and a file with no matching `blob` row. -/
def pruneEntries (rows : List (List String)) :
    List (String × FsNode) → List (String × FsNode)
  | [] => []
  | (nm, FsNode.dir ch) :: rest =>
    if nm ∈ IGNORE_FOLDERS then (nm, FsNode.dir ch) :: pruneEntries rows rest
    else if rows.any (fun r => rowKind r == "tree" && rowName r == nm) then
      (nm, FsNode.dir ch) :: pruneEntries rows rest
    else pruneEntries rows rest
  | (nm, FsNode.file c) :: rest =>
    if rows.any (fun r => rowKind r == "blob" && rowName r == nm) then
      (nm, FsNode.file c) :: pruneEntries rows rest
    else pruneEntries rows rest

/-- The materialize pass for one row: `tree` rows `MkdirAll` the
directory (failing over an existing file), `blob` rows open/create/
truncate the file and copy the decompressed blob into it (failing over
an existing directory); other kinds are ignored. -/
def materializeRow (store : FS) (l : List (String × FsNode)) (r : List String) :
    Except GitError (List (String × FsNode)) :=
  if rowKind r == "tree" then
    match findEntry l (rowName r) with
    | some (FsNode.dir _) => .ok l
    | some (FsNode.file _) => .error .ioError
    | none => .ok (l ++ [(rowName r, FsNode.dir [])])
  else if rowKind r == "blob" then
    match findEntry l (rowName r) with
    | some (FsNode.dir _) => .error .ioError
    | _ =>
      orE (getObjectPath (rowHash r)) fun p =>
        orE (readObjectFile store p) fun content =>
          .ok (writeFileEntry l (rowName r) content)
  else .ok l

/-- The materialize pass over all rows, in order. -/
def materializeRows (store : FS) : List (List String) → List (String × FsNode) →
    Except GitError (List (String × FsNode))
  | [], l => .ok l
  | r :: rs, l => orE (materializeRow store l r) fun l2 => materializeRows store rs l2

/-- `switchDirToCommit`: reset one directory level to the given rows:
prune extraneous entries, then materialize every row. -/
def switchDirToCommit (store : FS) (listing : List (String × FsNode))
    (rows : List (List String)) : Except GitError (List (String × FsNode)) :=
  materializeRows store rows (pruneEntries rows listing)

/-- Object store for the C2 witness: one blob at hash `"cd"`. -/
def wStoreC2 : FS :=
  ⟨[(BASEDIR ++ "/objects/" ++ strTake "cd" 2 ++ "/" ++ strDrop "cd" 2,
      lzwEncode [104, 105])], []⟩

/-- Live directory for the C2 witness: an extra file `junk`, a kept
subdirectory `sub`, and the reserved `.gat` directory. -/
def wListingC2 : List (String × FsNode) :=
  [("junk", .file [1, 2]), ("sub", .dir []), (".gat", .dir [])]

/-- Target rows for the C2 witness. -/
def wRowsC2 : List (List String) := [["blob", "cd", "a.txt"], ["tree", "ee", "sub"]]

/-- Replace (or create) a directory entry's children in a listing. -/
def setDirEntry : List (String × FsNode) → String → List (String × FsNode) →
    List (String × FsNode)
  | [], nm, ch => [(nm, .dir ch)]
  | e :: es, nm, ch => if e.1 = nm then (nm, .dir ch) :: es else e :: setDirEntry es nm ch

mutual

/-- `switchTreeToCommit`: read the target tree, reconcile the current
level (`switchDirToCommit`), then recurse into every `tree` row.  `fuel`
bounds the recursion, which Go bounds only by the (possibly cyclic)
hash graph. -/
def switchTreeToCommit (store : FS) : Nat → List (String × FsNode) → String →
    Except GitError (List (String × FsNode))
  | 0, _, _ => .error .outOfFuel
  | fuel + 1, listing, treeHash =>
    orE (readTree store treeHash) fun rows =>
      orE (switchDirToCommit store listing rows) fun l1 =>
        switchTreeRows store fuel rows l1
termination_by fuel listing treeHash => (fuel, 0)

/-- The recursion of `switchTreeToCommit` over the `tree` rows of the
current level.  A missing or non-directory child makes the recursive
call's `os.Open`/`Readdir` fail, which the source answers with
`log.Fatal` (`crashFatal`). -/
def switchTreeRows (store : FS) : Nat → List (List String) → List (String × FsNode) →
    Except GitError (List (String × FsNode))
  | _, [], l => .ok l
  | fuel, r :: rs, l =>
    if rowKind r == "tree" then
      match findEntry l (rowName r) with
      | some (FsNode.dir ch) =>
        orE (switchTreeToCommit store fuel ch (rowHash r)) fun ch2 =>
          switchTreeRows store fuel rs (setDirEntry l (rowName r) ch2)
      | _ => .error .crashFatal
    else switchTreeRows store fuel rs l
termination_by fuel rows l => (fuel, rows.length + 1)

end

/-- The repository: the metadata store (under `.gat`) and the working
directory listing. -/
structure Repo where
  store : FS
  work : List (String × FsNode)

/-- `switchToCommit` (the `revert` operation): read the commit, reconcile
the working directory to its tree, then advance the current branch. -/
def switchToCommit (rp : Repo) (fuel : Nat) (commitHash : String) : Except GitError Repo :=
  orE (readCommit rp.store commitHash) fun commit =>
    orE (switchTreeToCommit rp.store fuel rp.work commit.TreeHash) fun w2 =>
      orE (updateCurrentHead rp.store commitHash) fun st2 =>
        .ok ⟨st2, w2⟩

/-- `checkoutBranch`: remember the current branch, swap HEAD to the new
branch, resolve its head commit and reconcile to it; on a returned error
from resolution or reconciliation, restore HEAD to the previous branch.
A crash (panic or `log.Fatal`) inside resolution/reconciliation kills
the process before the restore code runs. -/
def checkoutBranch (rp : Repo) (fuel : Nat) (branchName : String) :
    Repo × Except GitError Unit :=
  match getCurrentBranch rp.store with
  | .error e => (rp, .error e)
  | .ok currentBranch =>
    match switchHead rp.store branchName with
    | .error e => (rp, .error e)
    | .ok st1 =>
      match getCurrentHead st1 with
      | .error e =>
        match switchHead st1 currentBranch with
        | .error e2 => (⟨st1, rp.work⟩, .error e2)
        | .ok st2 => (⟨st2, rp.work⟩, .error e)
      | .ok headCommit =>
        match switchToCommit ⟨st1, rp.work⟩ fuel headCommit with
        | .error e =>
          if e.isCrash then (⟨st1, rp.work⟩, .error e)
          else
            match switchHead st1 currentBranch with
            | .error e2 => (⟨st1, rp.work⟩, .error e2)
            | .ok st2 => (⟨st2, rp.work⟩, .error e)
        | .ok rp2 => (rp2, .ok ())

/-- Repository for the C4 counterexample: HEAD on `main`, and a branch
`bad` whose ref file holds the one-character hash `"q"`. -/
def c4FS : FS :=
  ⟨[(headPath, strToBytes "refs/heads/main"),
    (mainRefPath, strToBytes "aa"),
    (BASEDIR ++ "/refs/heads/bad", strToBytes "q")], []⟩

/-- Repository for the C4 witness: HEAD on `main`; the target branch
`nosuch` has no ref file, so resolving its head fails with an ordinary
I/O error and HEAD is rolled back. -/
def c4wFS : FS :=
  ⟨[(headPath, strToBytes ("refs/heads/" ++ "main")), (mainRefPath, strToBytes "aa")], []⟩

/-! ## Branch creation -/
/-- Ref-file path of a branch. -/
def branchRefPath (branchName : String) : String :=
  BASEDIR ++ "/refs/heads/" ++ branchName

/-- The tail of `createAndSwitchBranch` once the ref file is known to be
empty or freshly created: write the current head's commit hash into the
ref and switch HEAD to the branch. -/
def createBranchGo (fs : FS) (branchName : String) : Except GitError FS :=
  orE (getCurrentHead fs) fun commitHash =>
    orE (fsWriteE fs (branchRefPath branchName) (strToBytes commitHash)) fun fs2 =>
      switchHead fs2 branchName

/-- `createAndSwitchBranch`: open/create the ref file; if it already has
content, print a message and report success without changing anything;
otherwise write the current head's hash into it and switch HEAD. -/
def createAndSwitchBranch (fs : FS) (branchName : String) : Except GitError FS :=
  if branchRefPath branchName ∈ fs.broken then .error .ioError
  else
    match fsRead fs (branchRefPath branchName) with
    | some content =>
      if content = [] then createBranchGo fs branchName
      else .ok fs
    | none => createBranchGo (fsWrite fs (branchRefPath branchName) []) branchName

/-- Repository for the C6 witness with an existing non-empty branch ref
`dev`. -/
def c6FS : FS :=
  ⟨[(headPath, strToBytes "refs/heads/main"), (mainRefPath, strToBytes "aa"),
    (branchRefPath "dev", strToBytes "bb")], []⟩

/-- Repository for the C6 witness without a `dev` ref. -/
def c6FS2 : FS :=
  ⟨[(headPath, strToBytes "refs/heads/main"), (mainRefPath, strToBytes "aa")], []⟩

/-! ## Snapshot builder (`createTree`) -/
/-- Temp-file names used by the tree builder, indexed by a counter (the
source draws random names from `randomString`). -/
def tempFileName (n : Nat) : String := BASEDIR ++ "/temp/t" ++ toString n

mutual

/-- The entry loop of `createTree`: for each entry emit a
tab-separated, newline-terminated row — `tree` rows for non-reserved
subdirectories (built recursively), `blob` rows for files — returning
the concatenated row text.  A failed child build or blob store is
answered with `log.Fatalf` (`crashFatal`). -/
def createTreeRows (store : FS) (ctr : Nat) :
    List (String × FsNode) → Except GitError (String × FS × Nat)
  | [] => .ok ("", store, ctr)
  | (nm, FsNode.dir ch) :: rest =>
    if nm ∈ IGNORE_FOLDERS then createTreeRows store ctr rest
    else
      match createTreeDir store ctr ch with
      | .error _ => .error .crashFatal
      | .ok (h, store2, ctr2) =>
        match createTreeRows store2 ctr2 rest with
        | .error e => .error e
        | .ok (t, store3, ctr3) =>
          .ok ("tree" ++ "\t" ++ h ++ "\t" ++ nm ++ "\n" ++ t, store3, ctr3)
  | (nm, FsNode.file content) :: rest =>
    match storeObject store content (tempFileName ctr) with
    | .error _ => .error .crashFatal
    | .ok (h, store2) =>
      match createTreeRows store2 (ctr + 1) rest with
      | .error e => .error e
      | .ok (t, store3, ctr3) =>
        .ok ("blob" ++ "\t" ++ h ++ "\t" ++ nm ++ "\n" ++ t, store3, ctr3)
termination_by listing => (sizeOf listing, 0)

/-- `createTree` for one directory: create a temp file (an I/O error
here is returned, not fatal), build the row text for the children,
store the text itself as a blob object, and remove the temp file
(`DEBUG` is false). -/
def createTreeDir (store : FS) (ctr : Nat) (children : List (String × FsNode)) :
    Except GitError (String × FS × Nat) :=
  if tempFileName ctr ∈ store.broken then .error .ioError
  else
    match createTreeRows store (ctr + 1) children with
    | .error e => .error e
    | .ok (text, store2, ctr2) =>
      match createBlob (fsWrite store2 (tempFileName ctr) (strToBytes text))
          (tempFileName ctr) (tempFileName ctr2) with
      | .error _ => .error .crashFatal
      | .ok (h, store4) => .ok (h, fsRemove store4 (tempFileName ctr), ctr2 + 1)
termination_by (sizeOf children, 1)

end

/-- The object path string for a (long enough) hash. -/
def objectPathStr (hash : String) : String :=
  BASEDIR ++ "/objects/" ++ strTake hash 2 ++ "/" ++ strDrop hash 2

/-- A name that can appear in a tree row: no tab, no newline, and
byte-sized characters. -/
def nameOk (nm : String) : Prop :=
  ∀ ch ∈ nm.data, ch ≠ '\t' ∧ ch ≠ '\n' ∧ ch.toNat < 256

/-- The non-reserved entries of a listing: subdirectories with reserved
names are skipped, files never are. -/
def treeRowFilter (listing : List (String × FsNode)) : List (String × FsNode) :=
  listing.filter fun e =>
    match e.2 with
    | FsNode.dir _ => !(decide (e.1 ∈ IGNORE_FOLDERS))
    | FsNode.file _ => true

mutual

/-- Modelled from the spec: the tree object text of a directory
listing — one tab-separated, newline-terminated line per non-reserved
entry, in order `kind`, `hash`, `name`, where a subdirectory's hash is
its own recursively built tree hash and a file's hash is the hex SHA-1
of its content.  This is the reference against which `createTree`'s
output is checked. -/
def specTreeText : List (String × FsNode) → String
  | [] => ""
  | (nm, FsNode.dir ch) :: rest =>
    if nm ∈ IGNORE_FOLDERS then specTreeText rest
    else "tree" ++ "\t" ++ specTreeHash ch ++ "\t" ++ nm ++ "\n" ++ specTreeText rest
  | (nm, FsNode.file content) :: rest =>
    "blob" ++ "\t" ++ hexEncodeBytes (sha1Hash content) ++ "\t" ++ nm ++ "\n"
      ++ specTreeText rest
termination_by listing => (sizeOf listing, 0)

/-- Modelled from the spec: a directory's tree hash is the content hash
of its tree text ("a tree hash is really the hash of its text
encoding"). -/
def specTreeHash (listing : List (String × FsNode)) : String :=
  hexEncodeBytes (sha1Hash (strToBytes (specTreeText listing)))
termination_by (sizeOf listing, 1)

end

/-- Correspondence between a directory entry and its emitted tree row:
files map to a `blob` row carrying the hex SHA-1 of their content,
subdirectories to a `tree` row carrying the recursively built child
tree's hash. -/
def entryMatches (e : String × FsNode) (row : List String) : Prop :=
  match e.2 with
  | FsNode.file c => row = ["blob", hexEncodeBytes (sha1Hash c), e.1]
  | FsNode.dir ch => row = ["tree", specTreeHash ch, e.1]

mutual

/-- Row-safe names throughout a node. -/
def nodeNamesOk : FsNode → Prop
  | .file _ => True
  | .dir ch => listNamesOk ch

/-- Row-safe names throughout a listing. -/
def listNamesOk : List (String × FsNode) → Prop
  | [] => True
  | (nm, nd) :: rest => nameOk nm ∧ nodeNamesOk nd ∧ listNamesOk rest

end

deriving instance DecidableEq for Repo

@[simp] theorem orE_ok {α β : Type} (a : α) (f : α → Except GitError β) :
    orE (.ok a) f = f a := rfl

@[simp] theorem orE_error {α β : Type} (e : GitError) (f : α → Except GitError β) :
    orE (.error e) f = .error e := rfl

@[simp] theorem orO_some {α β : Type} (a : α) (e : GitError) (f : α → Except GitError β) :
    orO (some a) e f = f a := rfl

@[simp] theorem orO_none {α β : Type} (e : GitError) (f : α → Except GitError β) :
    orO (none : Option α) e f = .error e := rfl

theorem lookupPath_erasePath (es : List (String × List Nat)) (p q : String) (h : q ≠ p) :
    lookupPath (erasePath es p) q = lookupPath es q := by
  induction es with
  | nil => rfl
  | cons e es ih =>
    by_cases hep : e.1 = p
    · rw [erasePath, if_pos hep, ih, lookupPath, if_neg (fun hq : e.1 = q => h (hq.symm.trans hep))]
    · rw [erasePath, if_neg hep, lookupPath, lookupPath]
      by_cases heq : e.1 = q
      · rw [if_pos heq, if_pos heq]
      · rw [if_neg heq, if_neg heq, ih]

@[simp] theorem fsRead_fsWrite_same (fs : FS) (p : String) (v : List Nat) :
    fsRead (fsWrite fs p v) p = some v := by
  simp [fsRead, fsWrite, lookupPath]

theorem fsRead_fsWrite_other (fs : FS) (p q : String) (v : List Nat) (h : q ≠ p) :
    fsRead (fsWrite fs p v) q = fsRead fs q := by
  unfold fsRead fsWrite
  rw [lookupPath, if_neg (fun hq => h hq.symm), lookupPath_erasePath _ _ _ h]

theorem fsRead_fsRemove_other (fs : FS) (p q : String) (h : q ≠ p) :
    fsRead (fsRemove fs p) q = fsRead fs q := by
  unfold fsRead fsRemove
  exact lookupPath_erasePath _ _ _ h

@[simp] theorem broken_fsWrite (fs : FS) (p : String) (v : List Nat) :
    (fsWrite fs p v).broken = fs.broken := rfl

@[simp] theorem broken_fsRemove (fs : FS) (p : String) :
    (fsRemove fs p).broken = fs.broken := rfl

@[simp] theorem bytesToChars_strToBytes (s : String) :
    bytesToChars (strToBytes s) = s.data := by
  simp [bytesToChars, strToBytes, List.map_map, Function.comp_def]

theorem idxOf_lt_length (ext : List (List Nat)) (w : List Nat) (h : w ∈ ext) :
    idxOf ext w < ext.length := by
  induction ext with
  | nil => cases h
  | cons e es ih =>
    rw [idxOf]
    by_cases he : e = w
    · simp [he]
    · rw [if_neg he]
      have hm : w ∈ es := by
        cases List.mem_cons.mp h with
        | inl h1 => exact absurd h1.symm he
        | inr h2 => exact h2
      simpa [List.length_cons] using Nat.succ_lt_succ (ih hm)

theorem get_idxOf (ext : List (List Nat)) (w : List Nat) (h : w ∈ ext)
    (hlt : idxOf ext w < ext.length) : ext.get ⟨idxOf ext w, hlt⟩ = w := by
  induction ext with
  | nil => cases h
  | cons e es ih =>
    by_cases he : e = w
    · simp only [idxOf, if_pos he] at hlt ⊢
      simpa using he
    · have hm : w ∈ es := by
        cases List.mem_cons.mp h with
        | inl h1 => exact absurd h1.symm he
        | inr h2 => exact h2
      simp only [idxOf, if_neg he] at hlt ⊢
      simpa using ih hm (by simpa using Nat.lt_of_succ_lt_succ hlt)

theorem idxOf_append_left (l1 l2 : List (List Nat)) (w : List Nat) (h : w ∈ l1) :
    idxOf (l1 ++ l2) w = idxOf l1 w := by
  induction l1 with
  | nil => cases h
  | cons e es ih =>
    by_cases he : e = w
    · simp [idxOf, he]
    · have hm : w ∈ es := by
        cases List.mem_cons.mp h with
        | inl h1 => exact absurd h1.symm he
        | inr h2 => exact h2
      simp [idxOf, he, ih hm]

theorem idxOf_append_right (l1 l2 : List (List Nat)) (w : List Nat) (h : w ∉ l1) :
    idxOf (l1 ++ l2) w = l1.length + idxOf l2 w := by
  induction l1 with
  | nil => simp [idxOf]
  | cons e es ih =>
    have he : ¬ (e = w) := fun hew => h (hew ▸ List.mem_cons_self e es)
    have hm : w ∉ es := fun hmem => h (List.mem_cons_of_mem e hmem)
    rw [List.cons_append, idxOf, if_neg he, ih hm, List.length_cons]
    omega

theorem headD_append_of_ne_nil (w t : List Nat) (d : Nat) (hw : w ≠ []) :
    (w ++ t).headD d = w.headD d := by
  cases w with
  | nil => exact absurd rfl hw
  | cons a _ => rfl

/-- Correctness of the decoder's code lookup at a sync point: when the
encoder's dictionary is the decoder's plus the one pending entry
`prev ++ [w.headD 0]`, the code the encoder emits for `w` decodes to `w`. -/
theorem lzwEntry_codeOf (extD : List (List Nat)) (prev w : List Nat)
    (hw : w ≠ []) (hprev : prev ≠ []) (hbw : ∀ x ∈ w, x < 256)
    (hmem : w.length = 1 ∨ w ∈ extD ++ [prev ++ [w.headD 0]]) :
    lzwEntry extD prev (lzwCodeOf (extD ++ [prev ++ [w.headD 0]]) w) = some w := by
  match w with
  | [] => exact absurd rfl hw
  | [s] =>
    have hs : s < 256 := hbw s (List.mem_singleton_self s)
    have hcode : lzwCodeOf (extD ++ [prev ++ [([s] : List Nat).headD 0]]) [s] = s := rfl
    rw [hcode, lzwEntry, if_pos hs]
  | s1 :: s2 :: t =>
    have hcode : lzwCodeOf (extD ++ [prev ++ [(s1 :: s2 :: t).headD 0]]) (s1 :: s2 :: t)
        = 256 + idxOf (extD ++ [prev ++ [(s1 :: s2 :: t).headD 0]]) (s1 :: s2 :: t) := rfl
    have hmem2 : (s1 :: s2 :: t) ∈ extD ++ [prev ++ [(s1 :: s2 :: t).headD 0]] := by
      cases hmem with
      | inl h1 => simp at h1
      | inr h2 => exact h2
    rw [hcode]
    by_cases hD : (s1 :: s2 :: t) ∈ extD
    · have hidx : idxOf (extD ++ [prev ++ [(s1 :: s2 :: t).headD 0]]) (s1 :: s2 :: t)
          = idxOf extD (s1 :: s2 :: t) := idxOf_append_left _ _ _ hD
      have hlt : idxOf extD (s1 :: s2 :: t) < extD.length := idxOf_lt_length _ _ hD
      rw [hidx, lzwEntry, if_neg (by omega)]
      have hsub : 256 + idxOf extD (s1 :: s2 :: t) - 256 = idxOf extD (s1 :: s2 :: t) := by omega
      rw [dif_pos (by rw [hsub]; exact hlt)]
      congr 1
      have := get_idxOf extD (s1 :: s2 :: t) hD hlt
      simpa [hsub] using this
    · have hpend : (s1 :: s2 :: t) = prev ++ [(s1 :: s2 :: t).headD 0] := by
        rcases List.mem_append.mp hmem2 with h1 | h2
        · exact absurd h1 hD
        · simpa using h2
      have hidx : idxOf (extD ++ [prev ++ [(s1 :: s2 :: t).headD 0]]) (s1 :: s2 :: t)
          = extD.length := by
        rw [idxOf_append_right _ _ _ hD, idxOf, if_pos hpend.symm, Nat.add_zero]
      rw [hidx, lzwEntry, if_neg (by omega)]
      have hsub : 256 + extD.length - 256 = extD.length := by omega
      rw [dif_neg (by omega), if_pos (by omega)]
      have hhead : (s1 :: s2 :: t).headD 0 = prev.headD 0 := by
        conv_lhs => rw [hpend]
        exact headD_append_of_ne_nil prev _ 0 hprev
      rw [show prev ++ [prev.headD 0] = prev ++ [(s1 :: s2 :: t).headD 0] by rw [hhead]]
      rw [← hpend]

/-- Main LZW invariant: at a sync point (decoder dictionary `extD`, last
decoded string `prev`, encoder holding unemitted match `w`, encoder
dictionary equal to `extD` plus the pending entry), decoding the codes the
encoder emits for the remaining `input` yields `w ++ input`. -/
theorem lzwDecA_lzwEncA (input : List Nat) : ∀ (extD : List (List Nat)) (prev w : List Nat),
    (∀ x ∈ input, x < 256) → (∀ x ∈ w, x < 256) →
    prev ≠ [] → w ≠ [] →
    (w.length = 1 ∨ w ∈ extD ++ [prev ++ [w.headD 0]]) →
    lzwDecA extD prev (lzwEncA (extD ++ [prev ++ [w.headD 0]]) w input) = some (w ++ input) := by
  induction input with
  | nil =>
    intro extD prev w _ hbw hprev hw hmem
    rw [lzwEncA, if_neg hw, lzwDecA, lzwEntry_codeOf extD prev w hw hprev hbw hmem]
    simp [lzwDecA]
  | cons c rest ih =>
    intro extD prev w hbi hbw hprev hw hmem
    have hc : c < 256 := hbi c (List.mem_cons_self c rest)
    have hbr : ∀ x ∈ rest, x < 256 := fun x hx => hbi x (List.mem_cons_of_mem c hx)
    have hhead : (w ++ [c]).headD 0 = w.headD 0 := headD_append_of_ne_nil w [c] 0 hw
    rw [lzwEncA]
    by_cases hin : (w ++ [c]) ∈ extD ++ [prev ++ [w.headD 0]]
    · rw [if_pos (Or.inr hin)]
      have hbw2 : ∀ x ∈ w ++ [c], x < 256 := by
        intro x hx
        rcases List.mem_append.mp hx with h1 | h2
        · exact hbw x h1
        · simpa using (List.mem_singleton.mp h2) ▸ hc
      have := ih extD prev (w ++ [c]) hbr hbw2 hprev (by simp)
        (Or.inr (by rw [hhead]; exact hin))
      rw [hhead] at this
      rw [this]
      simp
    · rw [if_neg (by rintro (h1 | h2); exact hw h1; exact hin h2)]
      rw [lzwDecA, lzwEntry_codeOf extD prev w hw hprev hbw hmem, Option.some_bind]
      have := ih (extD ++ [prev ++ [w.headD 0]]) w [c] hbr
        (by intro x hx; simpa using (List.mem_singleton.mp hx) ▸ hc)
        hw (by simp) (Or.inl rfl)
      simp only [List.headD_cons] at this
      rw [this]
      simp

/-- Round trip of the LZW codec: decompressing the compression of any
byte sequence gives back that sequence. -/
theorem lzw_roundtrip (b : List Nat) (hb : ∀ x ∈ b, x < 256) :
    lzwDecode (lzwEncode b) = some b := by
  cases b with
  | nil => rfl
  | cons c rest =>
    have hc : c < 256 := hb c (List.mem_cons_self c rest)
    have hbr : ∀ x ∈ rest, x < 256 := fun x hx => hb x (List.mem_cons_of_mem c hx)
    rw [lzwEncode, lzwEncA, if_pos (Or.inl rfl)]
    simp only [List.nil_append]
    cases rest with
    | nil =>
      rw [lzwEncA, if_neg (by simp)]
      have hcode : lzwCodeOf [] [c] = c := rfl
      rw [hcode, lzwDecode, if_pos hc]
      rfl
    | cons c2 rest2 =>
      have hc2 : c2 < 256 := hbr c2 (List.mem_cons_self c2 rest2)
      have hbr2 : ∀ x ∈ rest2, x < 256 := fun x hx => hbr x (List.mem_cons_of_mem c2 hx)
      rw [lzwEncA, if_neg (by simp), lzwDecode]
      have hcode : lzwCodeOf [] [c] = c := rfl
      rw [hcode, if_pos hc]
      have := lzwDecA_lzwEncA rest2 [] [c] [c2] hbr2
        (by intro x hx; simpa using (List.mem_singleton.mp hx) ▸ hc2)
        (by simp) (by simp) (Or.inl rfl)
      simp only [List.headD_cons, List.nil_append] at this
      simp only [List.nil_append]
      rw [this]
      simp

@[simp] theorem length_natToBytesBE (k x : Nat) : (natToBytesBE k x).length = k := by
  induction k generalizing x with
  | zero => rfl
  | succ k ih => simp [natToBytesBE, ih]

theorem length_sha1Hash (msg : List Nat) : (sha1Hash msg).length = 20 := by
  simp [sha1Hash]

theorem length_flatMap_hexDigits (bytes : List Nat) :
    (bytes.flatMap fun b => [hexDigit (b / 16), hexDigit (b % 16)]).length
      = 2 * bytes.length := by
  induction bytes with
  | nil => rfl
  | cons b bs ih =>
    rw [List.flatMap_cons, List.length_append, ih, List.length_cons]
    simp only [List.length_cons, List.length_nil]
    omega

theorem length_hexEncodeBytes (bytes : List Nat) :
    (hexEncodeBytes bytes).length = 2 * bytes.length := by
  have h0 : (hexEncodeBytes bytes).length
      = (bytes.flatMap fun b => [hexDigit (b / 16), hexDigit (b % 16)]).length := rfl
  rw [h0, length_flatMap_hexDigits]

theorem hexSha1_length_forty (b : List Nat) :
    (hexEncodeBytes (sha1Hash b)).length = 40 := by
  rw [length_hexEncodeBytes, length_sha1Hash]

/-- Helper: under an all-good file system (`broken = []`), `createBlob`
succeeds and the stored object decompresses back to the file content. -/
theorem createBlob_load (fs : FS) (path tempName : String) (content : List Nat)
    (hopen : fsOpen fs path = .ok content)
    (hbytes : ∀ x ∈ content, x < 256)
    (hbroken : fs.broken = []) :
    ∃ h fs2 p, createBlob fs path tempName = .ok (h, fs2) ∧ getObjectPath h = .ok p ∧
      readObjectFile fs2 p = .ok content := by
  have htemp : tempName ∉ fs.broken := by rw [hbroken]; exact List.not_mem_nil tempName
  have hlen : (hexEncodeBytes (sha1Hash content)).length = 40 := hexSha1_length_forty content
  set objP := BASEDIR ++ "/objects/" ++ strTake (hexEncodeBytes (sha1Hash content)) 2
      ++ "/" ++ strDrop (hexEncodeBytes (sha1Hash content)) 2 with hobjP
  have hgp : getObjectPath (hexEncodeBytes (sha1Hash content)) = .ok objP := by
    rw [getObjectPath, if_pos (by rw [hlen]; omega), hobjP]
  have hren : fsRename (fsWrite fs tempName (lzwEncode content)) tempName objP
      = .ok (fsWrite (fsRemove (fsWrite fs tempName (lzwEncode content)) tempName) objP
          (lzwEncode content)) := by
    rw [fsRename, fsRead_fsWrite_same]
  rw [createBlob, hopen, orE_ok, storeObject, if_neg htemp, if_neg (by rw [hlen]; omega),
    hgp, orE_ok, hren, orE_ok]
  refine ⟨_, _, objP, rfl, hgp, ?_⟩
  rw [readObjectFile, fsOpen, if_neg (by simp [hbroken]), fsRead_fsWrite_same, orE_ok,
    lzw_roundtrip content hbytes, orO_some]

/-- Claim C1: for every byte sequence `b` (including the empty sequence),
storing `b` as an object (hash, LZW-compress, write to a temp file,
rename into `objects/<hash[0:2]>/<hash[2:]>`) and then loading the object
at the returned hash's derived path and decompressing it yields exactly
`b`. -/
theorem claim_C1_load_after_store (fs : FS) (path tempName : String) (b : List Nat)
    (hopen : fsOpen fs path = .ok b)
    (hbytes : ∀ x ∈ b, x < 256)
    (hbroken : fs.broken = []) :
    ∃ h fs2 p, createBlob fs path tempName = .ok (h, fs2) ∧ getObjectPath h = .ok p ∧
      readObjectFile fs2 p = .ok b :=
  createBlob_load fs path tempName b hopen hbytes hbroken

/-- Witness for claim C1 at the concrete two-byte file content
`"hi"` (`[104, 105]`). -/
theorem claim_C1_load_after_store_witness :
    ∃ h fs2 p,
      createBlob ⟨[("f", [104, 105])], []⟩ "f" ".gat/temp/abcdef" = .ok (h, fs2) ∧
        getObjectPath h = .ok p ∧ readObjectFile fs2 p = .ok [104, 105] :=
  claim_C1_load_after_store ⟨[("f", [104, 105])], []⟩ "f" ".gat/temp/abcdef"
    [104, 105] rfl (by decide) rfl

/-- Claim C9: `createBlob` fails with a `hashError` exactly when the
hex-encoded digest does not have length 40; since the hex encoding of a
SHA-1 digest always has length 40, this failure branch is unreachable
for every input. -/
theorem claim_C9_hashError_unreachable :
    (∀ b : List Nat, (hexEncodeBytes (sha1Hash b)).length = 40) ∧
      ∀ (fs : FS) (path tempName : String),
        createBlob fs path tempName ≠ .error .hashError := by
  refine ⟨hexSha1_length_forty, ?_⟩
  intro fs path tempName
  rw [createBlob]
  match hopen : fsOpen fs path with
  | .error e =>
    have he : e = .ioError := by
      rw [fsOpen] at hopen
      by_cases hb : path ∈ fs.broken
      · rw [if_pos hb] at hopen
        exact (Except.error.injEq _ _ ▸ hopen.symm)
      · rw [if_neg hb] at hopen
        match hr : fsRead fs path with
        | some v => rw [hr] at hopen; cases hopen
        | none => rw [hr] at hopen; exact (Except.error.injEq _ _ ▸ hopen.symm)
    rw [orE_error, he]
    intro hcon
    cases hcon
  | .ok content =>
    rw [orE_ok, storeObject]
    by_cases htemp : tempName ∈ fs.broken
    · rw [if_pos htemp]
      intro hcon
      cases hcon
    · rw [if_neg htemp, if_neg (by rw [hexSha1_length_forty]; omega)]
      rw [getObjectPath, if_pos (by rw [hexSha1_length_forty]; omega), orE_ok]
      match hren : fsRename (fsWrite fs tempName (lzwEncode content)) tempName
          (BASEDIR ++ "/objects/" ++ strTake (hexEncodeBytes (sha1Hash content)) 2
            ++ "/" ++ strDrop (hexEncodeBytes (sha1Hash content)) 2) with
      | .error e =>
        have he : e = .ioError := by
          rw [fsRename] at hren
          match hr : fsRead (fsWrite fs tempName (lzwEncode content)) tempName with
          | some v => rw [hr] at hren; cases hren
          | none => rw [hr] at hren; exact (Except.error.injEq _ _ ▸ hren.symm)
        rw [orE_error, he]
        intro hcon
        cases hcon
      | .ok fs2 =>
        rw [orE_ok]
        intro hcon
        cases hcon

@[simp] theorem bytesToStr_strToBytes (s : String) : bytesToStr (strToBytes s) = s := by
  cases s with
  | mk data => rw [bytesToStr, bytesToChars_strToBytes]

theorem decString_encString (s : String) (rest : List Nat) :
    decString (encString s ++ rest) = some (s, rest) := by
  cases s with
  | mk data =>
    have hlen : (String.mk data).length = data.length := rfl
    have hmap : (data.map Char.toNat).length = data.length := List.length_map data Char.toNat
    rw [encString, List.cons_append, decString,
      if_pos (by rw [List.length_append, hlen, hmap]; omega), hlen,
      List.take_left' hmap, List.drop_left' hmap]
    rw [List.map_map]
    have : data.map (Char.ofNat ∘ Char.toNat) = data.map id := by
      apply List.map_congr_left
      intro c _
      exact Char.ofNat_toNat c
    rw [this, List.map_id]

theorem decInt_encInt (i : Int) (rest : List Nat) :
    decInt (encInt i ++ rest) = some (i, rest) := by
  by_cases hi : i < 0
  · rw [encInt, if_pos hi]
    show decInt (1 :: i.natAbs :: rest) = some (i, rest)
    rw [decInt, if_pos rfl]
    have : -(i.natAbs : Int) = i := by omega
    rw [this]
  · rw [encInt, if_neg hi]
    show decInt (0 :: i.natAbs :: rest) = some (i, rest)
    rw [decInt, if_neg (by omega)]
    have : (i.natAbs : Int) = i := by omega
    rw [this]

theorem gobDecode_gobEncode (c : Commit) : gobDecodeCommit (gobEncodeCommit c) = some c := by
  have h4 : decInt (encInt c.Timestamp) = some (c.Timestamp, []) := by
    have := decInt_encInt c.Timestamp []
    rwa [List.append_nil] at this
  rw [gobEncodeCommit, List.append_assoc, List.append_assoc, gobDecodeCommit,
    decString_encString, Option.some_bind, decString_encString, Option.some_bind,
    decString_encString, Option.some_bind, h4, Option.some_bind, if_pos rfl]

theorem readCommit_ok_hash_len (fs : FS) (h : String) (c : Commit)
    (hok : readCommit fs h = .ok c) : 2 ≤ h.length := by
  by_contra hlen
  rw [readCommit, getObjectPath, if_neg hlen, orE_error] at hok
  cases hok

/-- Helper: a commit stored (compressed, gob-encoded) at its object path
is read back by `readCommit`. -/
theorem readCommit_of_stored (fs : FS) (h : String) (c : Commit)
    (hlen : 2 ≤ h.length)
    (hopen : fsOpen fs (BASEDIR ++ "/objects/" ++ strTake h 2 ++ "/" ++ strDrop h 2)
        = .ok (lzwEncode (gobEncodeCommit c)))
    (hbytes : ∀ x ∈ gobEncodeCommit c, x < 256) :
    readCommit fs h = .ok c := by
  rw [readCommit, getObjectPath, if_pos hlen, orE_ok, readObjectFile, hopen, orE_ok,
    lzw_roundtrip _ hbytes, orO_some, orE_ok, gobDecode_gobEncode, orO_some]

/-- Claim C3: for a root commit `A` whose parent hash is empty and a
commit `B` whose parent hash equals `A`'s hash, walking the history
starting from `B` yields exactly the sequence `[B, A]` and then
terminates (the result is the same for every sufficient fuel bound). -/
theorem claim_C3_walk_two_commits (fs : FS) (hB hA : String) (B A : Commit)
    (h1 : readCommit fs hB = .ok B) (h2 : B.ParentCommit = hA)
    (h3 : readCommit fs hA = .ok A) (h4 : A.ParentCommit = "") :
    ∀ n : Nat, walkHistory fs (n + 2) hB = .ok [(hB, B), (hA, A)] := by
  intro n
  have hlenA : 2 ≤ hA.length := readCommit_ok_hash_len fs hA A h3
  have hppos : 0 < B.ParentCommit.length := by
    rw [h2]
    omega
  rw [show n + 2 = (n + 1) + 1 from rfl, walkHistory, h1, orE_ok, if_pos hppos, h2,
    walkHistory, h3, orE_ok, if_neg (by rw [h4]; decide), orE_ok]

/-- Witness for claim C3 at the concrete two-commit store `wFS`. -/
theorem claim_C3_walk_two_commits_witness :
    walkHistory wFS 2 "bb" = .ok [("bb", wCommitB), ("aa", wCommitA)] :=
  claim_C3_walk_two_commits wFS "bb" "aa" wCommitB wCommitA
    (readCommit_of_stored wFS "bb" wCommitB (by decide) rfl (by decide))
    rfl
    (readCommit_of_stored wFS "aa" wCommitA (by decide) rfl (by decide))
    rfl
    0

/-- Claim C8 (failing input): a repository state in which storing the
commit object fails (the blob writer's temp file cannot be created).
`createCommit` then dereferences the nil commit-hash pointer in
`updateCurrentHead(*commitHash)` and panics instead of returning the
store error to its caller. -/
theorem claim_C8_store_failure_panics :
    createCommit
      ⟨[(headPath, strToBytes "refs/heads/main"), (mainRefPath, [])],
        [".gat/temp/t2"]⟩
      "tt" "" "m" 0 ".gat/temp/t1" ".gat/temp/t2"
      = .error .crashNilDeref := by
  decide

theorem parseTreeLoop_eq_filterMap (lines : List (List Char)) :
    parseTreeLoop lines = lines.filterMap (fun line =>
      if (splitOnChar '\t' line).length = 3
      then some ((splitOnChar '\t' line).map fun l => String.mk l) else none) := by
  induction lines with
  | nil => rfl
  | cons line rest ih =>
    by_cases h3 : (splitOnChar '\t' line).length = 3
    · rw [parseTreeLoop, if_pos h3, List.filterMap_cons, if_pos h3, ih]
    · rw [parseTreeLoop, if_neg h3, List.filterMap_cons, if_neg h3, ih]

/-- Counterexample to claim C7 as stated: deserializing a tree object
whose text is a non-empty malformed line does not fail with a
`corruptObject` error; it succeeds, silently skipping the line
(the `continue` branch in `readTree`). -/
theorem claim_C7_counterexample :
    readTree malformedTreeFS "ab" = .ok [] ∧
      readTree malformedTreeFS "ab" ≠ .error .corruptObject := by
  constructor
  · decide
  · decide

/-- Claim C7 as amended: deserializing a tree object that loads and
decompresses successfully never fails on malformed text; every line
that does not consist of exactly three tab-separated fields is silently
skipped, and exactly the three-field lines are returned, in order. -/
theorem claim_C7_amended_malformed_lines_skipped (fs : FS) (h p : String) (bytes : List Nat)
    (hp : getObjectPath h = .ok p)
    (hload : readObjectFile fs p = .ok bytes) :
    ∃ rows, readTree fs h = .ok rows ∧
      (∀ r ∈ rows, r.length = 3) ∧
      rows = (splitOnChar '\n' (bytesToChars bytes)).filterMap
        (fun line => if (splitOnChar '\t' line).length = 3
          then some ((splitOnChar '\t' line).map fun l => String.mk l)
          else none) := by
  refine ⟨parseTreeLoop (splitOnChar '\n' (bytesToChars bytes)), ?_, ?_, ?_⟩
  · rw [readTree, hp, orE_ok, hload, orE_ok]
  · intro r hr
    rw [parseTreeLoop_eq_filterMap] at hr
    rcases List.mem_filterMap.mp hr with ⟨line, _, hline⟩
    by_cases h3 : (splitOnChar '\t' line).length = 3
    · rw [if_pos h3] at hline
      cases hline
      rw [List.length_map]
      exact h3
    · rw [if_neg h3] at hline
      cases hline
  · exact parseTreeLoop_eq_filterMap _

/-- Witness for the amended claim C7 at the concrete malformed store. -/
theorem claim_C7_amended_witness :
    ∃ rows, readTree malformedTreeFS "ab" = .ok rows ∧
      (∀ r ∈ rows, r.length = 3) ∧
      rows = (splitOnChar '\n' (bytesToChars (strToBytes "garbage"))).filterMap
        (fun line => if (splitOnChar '\t' line).length = 3
          then some ((splitOnChar '\t' line).map fun l => String.mk l)
          else none) :=
  claim_C7_amended_malformed_lines_skipped malformedTreeFS "ab"
    (BASEDIR ++ "/objects/" ++ strTake "ab" 2 ++ "/" ++ strDrop "ab" 2)
    (strToBytes "garbage") (by decide) (by decide)

theorem pruneEntries_eq_filter (rows : List (List String))
    (listing : List (String × FsNode)) :
    pruneEntries rows listing = listing.filter (fun e =>
      match e.2 with
      | FsNode.dir _ =>
        decide (e.1 ∈ IGNORE_FOLDERS)
          || rows.any (fun r => rowKind r == "tree" && rowName r == e.1)
      | FsNode.file _ => rows.any (fun r => rowKind r == "blob" && rowName r == e.1)) := by
  induction listing with
  | nil => rfl
  | cons e rest ih =>
    match e with
    | (nm, FsNode.dir ch) =>
      by_cases hig : nm ∈ IGNORE_FOLDERS
      · rw [pruneEntries, if_pos hig, ih, List.filter_cons]
        simp [hig]
      · by_cases hany : rows.any (fun r => rowKind r == "tree" && rowName r == nm) = true
        · rw [pruneEntries, if_neg hig, if_pos hany, ih, List.filter_cons]
          simp [hany]
        · rw [pruneEntries, if_neg hig, if_neg hany, ih, List.filter_cons]
          simp [hig, hany]
    | (nm, FsNode.file c) =>
      by_cases hany : rows.any (fun r => rowKind r == "blob" && rowName r == nm) = true
      · rw [pruneEntries, if_pos hany, ih, List.filter_cons]
        simp [hany]
      · rw [pruneEntries, if_neg hany, ih, List.filter_cons]
        simp [hany]

theorem findEntry_append_single_other (l : List (String × FsNode)) (nm2 nm : String)
    (node : FsNode) (h : nm ≠ nm2) :
    findEntry (l ++ [(nm2, node)]) nm = findEntry l nm := by
  induction l with
  | nil =>
    rw [List.nil_append]
    simp [findEntry, Ne.symm h]
  | cons e es ih =>
    rw [List.cons_append, findEntry, findEntry]
    by_cases he : e.1 = nm
    · rw [if_pos he, if_pos he]
    · rw [if_neg he, if_neg he, ih]

theorem findEntry_append_single_self (l : List (String × FsNode)) (nm : String)
    (node : FsNode) (h : findEntry l nm = none) :
    findEntry (l ++ [(nm, node)]) nm = some node := by
  induction l with
  | nil => simp [findEntry]
  | cons e es ih =>
    rw [findEntry] at h
    rw [List.cons_append, findEntry]
    by_cases he : e.1 = nm
    · rw [if_pos he] at h
      cases h
    · rw [if_neg he] at h
      rw [if_neg he, ih h]

theorem findEntry_writeFileEntry_same (l : List (String × FsNode)) (nm : String)
    (c : List Nat) : findEntry (writeFileEntry l nm c) nm = some (FsNode.file c) := by
  induction l with
  | nil => simp [writeFileEntry, findEntry]
  | cons e es ih =>
    rw [writeFileEntry]
    by_cases he : e.1 = nm
    · rw [if_pos he, findEntry, if_pos rfl]
    · rw [if_neg he, findEntry, if_neg he, ih]

theorem findEntry_writeFileEntry_other (l : List (String × FsNode)) (nm2 nm : String)
    (c : List Nat) (h : nm ≠ nm2) :
    findEntry (writeFileEntry l nm2 c) nm = findEntry l nm := by
  induction l with
  | nil => simp [writeFileEntry, findEntry, Ne.symm h]
  | cons e es ih =>
    rw [writeFileEntry]
    by_cases he : e.1 = nm2
    · rw [if_pos he, findEntry, if_neg (fun hc : (nm2, FsNode.file c).1 = nm => h hc.symm),
        findEntry, if_neg (fun hc : e.1 = nm => h (hc.symm.trans he))]
    · rw [if_neg he, findEntry, findEntry]
      by_cases hq : e.1 = nm
      · rw [if_pos hq, if_pos hq]
      · rw [if_neg hq, if_neg hq, ih]

theorem materializeRow_preserves (store : FS) (l out : List (String × FsNode))
    (r : List String) (nm : String) (hok : materializeRow store l r = .ok out)
    (hne : rowName r ≠ nm) : findEntry out nm = findEntry l nm := by
  rw [materializeRow] at hok
  split at hok
  · -- tree row
    split at hok
    · cases hok; rfl
    · cases hok
    · cases hok
      exact findEntry_append_single_other l (rowName r) nm _ (fun hc => hne hc.symm)
  · split at hok
    · -- blob row
      split at hok
      · cases hok
      · match hp : getObjectPath (rowHash r) with
        | .error e => rw [hp, orE_error] at hok; cases hok
        | .ok p =>
          rw [hp, orE_ok] at hok
          match hl : readObjectFile store p with
          | .error e => rw [hl, orE_error] at hok; cases hok
          | .ok content =>
            rw [hl, orE_ok] at hok
            cases hok
            exact findEntry_writeFileEntry_other l (rowName r) nm content
              (fun hc => hne hc.symm)
    · cases hok; rfl

theorem materializeRows_preserves (store : FS) (rows : List (List String)) :
    ∀ l out nm, materializeRows store rows l = .ok out →
      (∀ r ∈ rows, rowName r ≠ nm) → findEntry out nm = findEntry l nm := by
  induction rows with
  | nil =>
    intro l out nm hok _
    rw [materializeRows] at hok
    cases hok
    rfl
  | cons r rs ih =>
    intro l out nm hok hne
    rw [materializeRows] at hok
    match hm : materializeRow store l r with
    | .error e => rw [hm, orE_error] at hok; cases hok
    | .ok l2 =>
      rw [hm, orE_ok] at hok
      rw [ih l2 out nm hok (fun r2 hr2 => hne r2 (List.mem_cons_of_mem r hr2))]
      exact materializeRow_preserves store l l2 r nm hm (hne r (List.mem_cons_self r rs))

theorem materializeRow_establishes (store : FS) (l out : List (String × FsNode))
    (r : List String) (hok : materializeRow store l r = .ok out) :
    (rowKind r = "tree" → ∃ ch, findEntry out (rowName r) = some (FsNode.dir ch)) ∧
    (rowKind r = "blob" → ∃ content p, getObjectPath (rowHash r) = .ok p ∧
      readObjectFile store p = .ok content ∧
      findEntry out (rowName r) = some (FsNode.file content)) := by
  constructor
  · intro hk
    have ht : (rowKind r == "tree") = true := by rw [hk]; rfl
    rw [materializeRow, if_pos ht] at hok
    split at hok
    · rename_i ch hf
      cases hok
      exact ⟨ch, hf⟩
    · cases hok
    · rename_i hf
      cases hok
      exact ⟨[], findEntry_append_single_self l (rowName r) _ hf⟩
  · intro hk
    have hb : (rowKind r == "blob") = true := by rw [hk]; rfl
    have ht : ¬ ((rowKind r == "tree") = true) := by rw [hk]; decide
    rw [materializeRow, if_neg ht, if_pos hb] at hok
    split at hok
    · cases hok
    · match hp : getObjectPath (rowHash r) with
      | .error e => rw [hp, orE_error] at hok; cases hok
      | .ok p =>
        rw [hp, orE_ok] at hok
        match hl : readObjectFile store p with
        | .error e => rw [hl, orE_error] at hok; cases hok
        | .ok content =>
          rw [hl, orE_ok] at hok
          cases hok
          exact ⟨content, p, rfl, hl, findEntry_writeFileEntry_same l (rowName r) content⟩

theorem materializeRows_presence (store : FS) (rows : List (List String)) :
    ∀ l out, materializeRows store rows l = .ok out →
      (rows.map rowName).Nodup →
      ∀ r ∈ rows,
        (rowKind r = "tree" → ∃ ch, findEntry out (rowName r) = some (FsNode.dir ch)) ∧
        (rowKind r = "blob" → ∃ content p, getObjectPath (rowHash r) = .ok p ∧
          readObjectFile store p = .ok content ∧
          findEntry out (rowName r) = some (FsNode.file content)) := by
  induction rows with
  | nil =>
    intro l out _ _ r hr
    cases hr
  | cons r0 rs ih =>
    intro l out hok hnd r hr
    rw [materializeRows] at hok
    match hm : materializeRow store l r0 with
    | .error e => rw [hm, orE_error] at hok; cases hok
    | .ok l2 =>
      rw [hm, orE_ok] at hok
      rcases List.mem_cons.mp hr with hr0 | hrs
      · -- r is the first row: established by its own materialize step and
        -- preserved by the remaining rows (their names differ)
        cases hr0
        have hpre : findEntry out (rowName r0) = findEntry l2 (rowName r0) := by
          refine materializeRows_preserves store rs l2 out (rowName r0) hok ?_
          intro r2 hr2 hcon
          rw [List.map_cons, List.nodup_cons] at hnd
          exact hnd.1 (hcon ▸ List.mem_map_of_mem rowName hr2)
        have hest := materializeRow_establishes store l l2 r0 hm
        refine ⟨fun hk => ?_, fun hk => ?_⟩
        · rcases hest.1 hk with ⟨ch, hch⟩
          exact ⟨ch, hpre ▸ hch⟩
        · rcases hest.2 hk with ⟨content, p, hp, hl, hfe⟩
          exact ⟨content, p, hp, hl, hpre ▸ hfe⟩
      · rw [List.map_cons, List.nodup_cons] at hnd
        exact ih l2 out hok hnd.2 r hrs

/-- Claim C2: reconciling one directory level against a target tree
deletes exactly the live entries whose name+kind pair does not appear in
the target entry list (directories are removed whole, files singly;
reserved metadata directory names are excluded from pruning), and
afterwards every target entry is present: each `tree` row exists as a
directory and each `blob` row exists as a file whose content is the
fully decompressed blob (full overwrite).  Names are unique within a
tree's entry list (spec data-model invariant). -/
theorem claim_C2_reconcile_dir (store : FS) (listing : List (String × FsNode))
    (rows : List (List String)) (out : List (String × FsNode))
    (hnd : (rows.map rowName).Nodup)
    (hok : switchDirToCommit store listing rows = .ok out) :
    (pruneEntries rows listing = listing.filter (fun e =>
      match e.2 with
      | FsNode.dir _ =>
        decide (e.1 ∈ IGNORE_FOLDERS)
          || rows.any (fun r => rowKind r == "tree" && rowName r == e.1)
      | FsNode.file _ => rows.any (fun r => rowKind r == "blob" && rowName r == e.1))) ∧
    ∀ r ∈ rows,
      (rowKind r = "tree" → ∃ ch, findEntry out (rowName r) = some (FsNode.dir ch)) ∧
      (rowKind r = "blob" → ∃ content p, getObjectPath (rowHash r) = .ok p ∧
        readObjectFile store p = .ok content ∧
        findEntry out (rowName r) = some (FsNode.file content)) :=
  ⟨pruneEntries_eq_filter rows listing,
   materializeRows_presence store rows (pruneEntries rows listing) out hok hnd⟩

/-- Witness for claim C2 at a concrete directory and target tree. -/
theorem claim_C2_reconcile_dir_witness :
    (pruneEntries wRowsC2 wListingC2 = wListingC2.filter (fun e =>
      match e.2 with
      | FsNode.dir _ =>
        decide (e.1 ∈ IGNORE_FOLDERS)
          || wRowsC2.any (fun r => rowKind r == "tree" && rowName r == e.1)
      | FsNode.file _ => wRowsC2.any (fun r => rowKind r == "blob" && rowName r == e.1))) ∧
    ∀ r ∈ wRowsC2,
      (rowKind r = "tree" →
        ∃ ch, findEntry [("sub", FsNode.dir []), (".gat", FsNode.dir []),
          ("a.txt", FsNode.file [104, 105])] (rowName r) = some (FsNode.dir ch)) ∧
      (rowKind r = "blob" → ∃ content p, getObjectPath (rowHash r) = .ok p ∧
        readObjectFile wStoreC2 p = .ok content ∧
        findEntry [("sub", FsNode.dir []), (".gat", FsNode.dir []),
          ("a.txt", FsNode.file [104, 105])] (rowName r) = some (FsNode.file content)) :=
  claim_C2_reconcile_dir wStoreC2 wListingC2 wRowsC2
    [("sub", FsNode.dir []), (".gat", FsNode.dir []), ("a.txt", FsNode.file [104, 105])]
    (by decide) (by decide)

theorem strDrop_append (pre s : String) : strDrop (pre ++ s) pre.length = s := by
  cases pre with
  | mk d1 =>
    cases s with
    | mk d2 =>
      show String.mk ((d1 ++ d2).drop d1.length) = String.mk d2
      rw [List.drop_left]

theorem strLength_append (a b : String) : (a ++ b).length = a.length + b.length := by
  cases a with
  | mk d1 =>
    cases b with
    | mk d2 =>
      show (d1 ++ d2).length = d1.length + d2.length
      rw [List.length_append]

/-- Counterexample to claim C4 as stated: switching to branch `bad`
fails (resolving its head commit panics in `getObjectPath` on the
one-character hash), yet HEAD is left pointing at the new branch's ref
file — no rollback happens, because the process dies inside
`switchToCommit` before the restore code runs. -/
theorem claim_C4_counterexample :
    (checkoutBranch ⟨c4FS, []⟩ 5 "bad").2 = .error .crashSliceRange ∧
      fsRead (checkoutBranch ⟨c4FS, []⟩ 5 "bad").1.store headPath
        = some (strToBytes "refs/heads/bad") := by
  constructor
  · decide
  · decide

/-- Claim C4 as amended: for every branch switch, if resolving the new
branch's head commit or reconciling the working directory to it fails
with an ordinary returned error (not a runtime panic or `log.Fatal`
exit), HEAD is restored to point at the previous branch's ref file
(pointer-level rollback), so on such an error the HEAD state is
unchanged from before the switch. -/
theorem claim_C4_amended_rollback (rp : Repo) (fuel : Nat) (name prev : String)
    (e : GitError)
    (hHead : fsRead rp.store headPath = some (strToBytes ("refs/heads/" ++ prev)))
    (hres : (checkoutBranch rp fuel name).2 = .error e)
    (hcrash : e.isCrash = false) :
    fsRead (checkoutBranch rp fuel name).1.store headPath
      = some (strToBytes ("refs/heads/" ++ prev)) := by
  by_cases hbrk : headPath ∈ rp.store.broken
  · have hgb : getCurrentBranch rp.store = .error .ioError := by
      rw [getCurrentBranch, fsOpen, if_pos hbrk, orE_error]
    simp only [checkoutBranch, hgb]
    exact hHead
  · have hopen : fsOpen rp.store headPath = .ok (strToBytes ("refs/heads/" ++ prev)) := by
      rw [fsOpen, if_neg hbrk, hHead]
    have h11 : ("refs/heads/" : String).length = 11 := rfl
    have hgb : getCurrentBranch rp.store = .ok prev := by
      rw [getCurrentBranch, hopen, orE_ok, bytesToStr_strToBytes,
        if_pos (by rw [strLength_append, h11]; omega), ← h11, strDrop_append]
    have hsw1 : switchHead rp.store name
        = .ok (fsWrite rp.store headPath (strToBytes ("refs/heads/" ++ name))) := by
      rw [switchHead, fsWriteE, if_neg hbrk]
    have hbrk1 : headPath ∉ (fsWrite rp.store headPath
        (strToBytes ("refs/heads/" ++ name))).broken := by
      rw [broken_fsWrite]
      exact hbrk
    have hswBack : switchHead (fsWrite rp.store headPath (strToBytes ("refs/heads/" ++ name)))
        prev = .ok (fsWrite (fsWrite rp.store headPath (strToBytes ("refs/heads/" ++ name)))
          headPath (strToBytes ("refs/heads/" ++ prev))) := by
      rw [switchHead, fsWriteE, if_neg hbrk1]
    match hgc : getCurrentHead (fsWrite rp.store headPath
        (strToBytes ("refs/heads/" ++ name))) with
    | .error e1 =>
      simp only [checkoutBranch, hgb, hsw1, hgc, hswBack]
      exact fsRead_fsWrite_same _ _ _
    | .ok headCommit =>
      match hsc : switchToCommit ⟨fsWrite rp.store headPath
          (strToBytes ("refs/heads/" ++ name)), rp.work⟩ fuel headCommit with
      | .ok rp2 =>
        simp only [checkoutBranch, hgb, hsw1, hgc, hsc] at hres
        cases hres
      | .error e2 =>
        by_cases hc2 : e2.isCrash = true
        · simp only [checkoutBranch, hgb, hsw1, hgc, hsc, hc2, if_true] at hres
          cases hres
          rw [hcrash] at hc2
          cases hc2
        · simp only [checkoutBranch, hgb, hsw1, hgc, hsc, hc2, if_false, hswBack]
          exact fsRead_fsWrite_same _ _ _

/-- Witness for the amended claim C4: checking out a missing branch
fails with an ordinary error and HEAD still points at `main`. -/
theorem claim_C4_amended_rollback_witness :
    fsRead (checkoutBranch ⟨c4wFS, []⟩ 5 "nosuch").1.store headPath
      = some (strToBytes ("refs/heads/" ++ "main")) :=
  claim_C4_amended_rollback ⟨c4wFS, []⟩ 5 "nosuch" "main" .ioError
    (by decide) (by decide) (by decide)

theorem branchRefPath_ne_headPath (name : String) : branchRefPath name ≠ headPath := by
  intro hc
  have hlen := congrArg String.length hc
  rw [branchRefPath, headPath] at hlen
  simp only [strLength_append] at hlen
  have h1 : (BASEDIR : String).length = 4 := rfl
  have h2 : ("/refs/heads/" : String).length = 12 := rfl
  have h3 : ("/HEAD" : String).length = 5 := rfl
  omega

theorem createBranchGo_spec (fs : FS) (name h : String)
    (hgc : getCurrentHead fs = .ok h)
    (hnb : branchRefPath name ∉ fs.broken)
    (hnh : headPath ∉ fs.broken) :
    ∃ fs3, createBranchGo fs name = .ok fs3 ∧
      fsRead fs3 (branchRefPath name) = some (strToBytes h) ∧
      fsRead fs3 headPath = some (strToBytes ("refs/heads/" ++ name)) := by
  rw [createBranchGo, hgc, orE_ok, fsWriteE, if_neg hnb, orE_ok, switchHead, fsWriteE,
    if_neg (by rw [broken_fsWrite]; exact hnh)]
  refine ⟨_, rfl, ?_, ?_⟩
  · rw [fsRead_fsWrite_other _ _ _ _ (branchRefPath_ne_headPath name),
      fsRead_fsWrite_same]
  · rw [fsRead_fsWrite_same]

/-- Claim C6: creating a branch whose ref file already exists with
content makes no state change and reports success (no error);
otherwise (the ref file is absent, or exists empty) the current head's
commit hash is written into the ref file and HEAD is switched to the
new branch. -/
theorem claim_C6_create_branch (fs : FS) (name : String)
    (hnb : branchRefPath name ∉ fs.broken)
    (hnh : headPath ∉ fs.broken) :
    (∀ c, fsRead fs (branchRefPath name) = some c → c ≠ [] →
      createAndSwitchBranch fs name = .ok fs) ∧
    (∀ h, fsRead fs (branchRefPath name) = some [] → getCurrentHead fs = .ok h →
      ∃ fs3, createAndSwitchBranch fs name = .ok fs3 ∧
        fsRead fs3 (branchRefPath name) = some (strToBytes h) ∧
        fsRead fs3 headPath = some (strToBytes ("refs/heads/" ++ name))) ∧
    (∀ h, fsRead fs (branchRefPath name) = none →
      getCurrentHead (fsWrite fs (branchRefPath name) []) = .ok h →
      ∃ fs3, createAndSwitchBranch fs name = .ok fs3 ∧
        fsRead fs3 (branchRefPath name) = some (strToBytes h) ∧
        fsRead fs3 headPath = some (strToBytes ("refs/heads/" ++ name))) := by
  refine ⟨?_, ?_, ?_⟩
  · intro c hread hne
    rw [createAndSwitchBranch, if_neg hnb, hread]
    show (if c = [] then createBranchGo fs name else Except.ok fs) = Except.ok fs
    rw [if_neg hne]
  · intro h hread hgc
    rw [createAndSwitchBranch, if_neg hnb, hread]
    exact createBranchGo_spec fs name h hgc hnb hnh
  · intro h hread hgc
    rw [createAndSwitchBranch, if_neg hnb, hread]
    exact createBranchGo_spec _ name h hgc (by rw [broken_fsWrite]; exact hnb)
      (by rw [broken_fsWrite]; exact hnh)

/-- Witness for claim C6: creating `dev` over an existing non-empty ref
changes nothing; creating it when absent writes the head hash and
switches HEAD. -/
theorem claim_C6_create_branch_witness :
    createAndSwitchBranch c6FS "dev" = .ok c6FS ∧
      ∃ fs3, createAndSwitchBranch c6FS2 "dev" = .ok fs3 ∧
        fsRead fs3 (branchRefPath "dev") = some (strToBytes "aa") ∧
        fsRead fs3 headPath = some (strToBytes ("refs/heads/" ++ "dev")) :=
  ⟨(claim_C6_create_branch c6FS "dev" (by decide) (by decide)).1
      (strToBytes "bb") (by decide) (by decide),
   (claim_C6_create_branch c6FS2 "dev" (by decide) (by decide)).2.2
      "aa" (by decide) (by decide)⟩

theorem getObjectPath_eq (hash : String) (h : 2 ≤ hash.length) :
    getObjectPath hash = .ok (objectPathStr hash) := by
  rw [getObjectPath, if_pos h]
  rfl

theorem strData_append (a b : String) : (a ++ b).data = a.data ++ b.data := by
  cases a
  cases b
  rfl

theorem take_append_small {α : Type} (l1 l2 : List α) (n : Nat) (h : n ≤ l1.length) :
    (l1 ++ l2).take n = l1.take n := by
  induction n generalizing l1 with
  | zero => rfl
  | succ n ih =>
    cases l1 with
    | nil => simp at h
    | cons a t =>
      rw [List.cons_append, List.take_cons_succ, List.take_cons_succ,
        ih t (by simpa using h)]

theorem mem_natToBytesBE (k : Nat) : ∀ x b, b ∈ natToBytesBE k x → b < 256 := by
  induction k with
  | zero =>
    intro x b hb
    cases hb
  | succ k ih =>
    intro x b hb
    rw [natToBytesBE] at hb
    rcases List.mem_append.mp hb with h1 | h2
    · exact ih _ b h1
    · rw [List.mem_singleton.mp h2]
      exact Nat.mod_lt _ (by omega)

theorem sha1Hash_bytes_lt (msg : List Nat) : ∀ b ∈ sha1Hash msg, b < 256 := by
  intro b hb
  rw [sha1Hash] at hb
  rcases List.mem_append.mp hb with hb | h5
  · rcases List.mem_append.mp hb with hb | h4
    · rcases List.mem_append.mp hb with hb | h3
      · rcases List.mem_append.mp hb with h1 | h2
        · exact mem_natToBytesBE 4 _ b h1
        · exact mem_natToBytesBE 4 _ b h2
      · exact mem_natToBytesBE 4 _ b h3
    · exact mem_natToBytesBE 4 _ b h4
  · exact mem_natToBytesBE 4 _ b h5

theorem hexDigit_clean (n : Nat) (h : n < 16) :
    hexDigit n ≠ '\t' ∧ hexDigit n ≠ '\n' ∧ (hexDigit n).toNat < 256 := by
  interval_cases n <;> exact (by decide)

theorem hexEncodeBytes_clean (bs : List Nat) (hbs : ∀ b ∈ bs, b < 256) :
    ∀ ch ∈ (hexEncodeBytes bs).data, ch ≠ '\t' ∧ ch ≠ '\n' ∧ ch.toNat < 256 := by
  intro ch hch
  have hdata : (hexEncodeBytes bs).data
      = bs.flatMap fun b => [hexDigit (b / 16), hexDigit (b % 16)] := rfl
  rw [hdata] at hch
  rcases List.mem_flatMap.mp hch with ⟨b, hb, hmem⟩
  have hblt : b < 256 := hbs b hb
  rcases List.mem_cons.mp hmem with h1 | h2
  · exact h1 ▸ hexDigit_clean (b / 16) (by omega)
  · rw [List.mem_singleton.mp h2]
    exact hexDigit_clean (b % 16) (Nat.mod_lt _ (by omega))

theorem splitOnChar_no_sep (c : Char) (l : List Char) (h : c ∉ l) :
    splitOnChar c l = [l] := by
  induction l with
  | nil => rfl
  | cons x xs ih =>
    rw [splitOnChar, if_neg (fun hc : x = c => h (hc ▸ List.mem_cons_self x xs)),
      ih (fun hm => h (List.mem_cons_of_mem x hm))]

theorem splitOnChar_append_sep (c : Char) (l1 l2 : List Char) (h : c ∉ l1) :
    splitOnChar c (l1 ++ c :: l2) = l1 :: splitOnChar c l2 := by
  induction l1 with
  | nil => rw [List.nil_append, splitOnChar, if_pos rfl]
  | cons x xs ih =>
    rw [List.cons_append, splitOnChar,
      if_neg (fun hc : x = c => h (hc ▸ List.mem_cons_self x xs)),
      ih (fun hm => h (List.mem_cons_of_mem x hm))]

theorem splitTab_row (k h nm : List Char)
    (hk : '\t' ∉ k) (hh : '\t' ∉ h) (hn : '\t' ∉ nm) :
    splitOnChar '\t' (k ++ '\t' :: (h ++ '\t' :: nm)) = [k, h, nm] := by
  rw [splitOnChar_append_sep _ _ _ hk, splitOnChar_append_sep _ _ _ hh,
    splitOnChar_no_sep _ _ hn]

theorem splitRowLine (k h nm rest : List Char)
    (hk : '\n' ∉ k) (hh : '\n' ∉ h) (hn : '\n' ∉ nm) :
    splitOnChar '\n' (k ++ '\t' :: (h ++ '\t' :: (nm ++ '\n' :: rest)))
      = (k ++ '\t' :: (h ++ '\t' :: nm)) :: splitOnChar '\n' rest := by
  have hassoc : k ++ '\t' :: (h ++ '\t' :: (nm ++ '\n' :: rest))
      = (k ++ '\t' :: (h ++ '\t' :: nm)) ++ '\n' :: rest := by
    simp [List.append_assoc]
  rw [hassoc]
  refine splitOnChar_append_sep _ _ _ ?_
  intro hmem
  rcases List.mem_append.mp hmem with h1 | h2
  · exact hk h1
  · rcases List.mem_cons.mp h2 with h3 | h4
    · cases h3
    · rcases List.mem_append.mp h4 with h5 | h6
      · exact hh h5
      · rcases List.mem_cons.mp h6 with h7 | h8
        · cases h7
        · exact hn h8

theorem objectPathStr_ne_tempFileName (h : String) (n : Nat) :
    objectPathStr h ≠ tempFileName n := by
  intro hc
  have hd := congrArg (fun s : String => s.data.take 6) hc
  simp only [objectPathStr, tempFileName] at hd
  rw [show BASEDIR ++ "/objects/" = (".gat/objects/" : String) from rfl,
    show BASEDIR ++ "/temp/t" = (".gat/temp/t" : String) from rfl] at hd
  simp only [strData_append, List.append_assoc] at hd
  rw [take_append_small _ _ 6 (by decide), take_append_small _ _ 6 (by decide)] at hd
  exact absurd hd (by decide)

/-- The write half of the blob store, fully characterized: the returned
hash is the hex SHA-1 of the content, the broken set is unchanged, and
the compressed content sits at the object path. -/
theorem storeObject_spec (fs : FS) (content : List Nat) (t : String)
    (htemp : t ∉ fs.broken) :
    ∃ fs2, storeObject fs content t = .ok (hexEncodeBytes (sha1Hash content), fs2) ∧
      fs2.broken = fs.broken ∧
      fsRead fs2 (objectPathStr (hexEncodeBytes (sha1Hash content)))
        = some (lzwEncode content) := by
  have hlen := hexSha1_length_forty content
  rw [storeObject, if_neg htemp, if_neg (by rw [hlen]; omega),
    getObjectPath_eq _ (by rw [hlen]; omega), orE_ok]
  have hren : fsRename (fsWrite fs t (lzwEncode content)) t
      (objectPathStr (hexEncodeBytes (sha1Hash content)))
      = .ok (fsWrite (fsRemove (fsWrite fs t (lzwEncode content)) t)
          (objectPathStr (hexEncodeBytes (sha1Hash content))) (lzwEncode content)) := by
    rw [fsRename, fsRead_fsWrite_same]
  rw [hren, orE_ok]
  refine ⟨_, rfl, by simp, fsRead_fsWrite_same _ _ _⟩

/-- `createBlob`, fully characterized (read the source file, then
`storeObject`). -/
theorem createBlob_spec (fs : FS) (path t : String) (content : List Nat)
    (hopen : fsOpen fs path = .ok content)
    (htemp : t ∉ fs.broken) :
    ∃ fs2, createBlob fs path t = .ok (hexEncodeBytes (sha1Hash content), fs2) ∧
      fs2.broken = fs.broken ∧
      fsRead fs2 (objectPathStr (hexEncodeBytes (sha1Hash content)))
        = some (lzwEncode content) := by
  rw [createBlob, hopen, orE_ok]
  exact storeObject_spec fs content t htemp

theorem strMk_data (s : String) : String.mk s.data = s := by
  cases s
  rfl

theorem clean_no_tab (l : List Char)
    (h : ∀ ch ∈ l, ch ≠ '\t' ∧ ch ≠ '\n' ∧ ch.toNat < 256) : '\t' ∉ l := by
  intro hm
  exact (h _ hm).1 rfl

theorem clean_no_newline (l : List Char)
    (h : ∀ ch ∈ l, ch ≠ '\t' ∧ ch ≠ '\n' ∧ ch.toNat < 256) : '\n' ∉ l := by
  intro hm
  exact (h _ hm).2.1 rfl

theorem parseTreeLoop_row (line : List Char) (rest : List (List Char)) (k h nm : List Char)
    (hsp : splitOnChar '\t' line = [k, h, nm]) :
    parseTreeLoop (line :: rest)
      = [String.mk k, String.mk h, String.mk nm] :: parseTreeLoop rest := by
  rw [parseTreeLoop, hsp]
  rfl

mutual

/-- Specification of the `createTree` entry loop: on an unbroken store
with row-safe names it succeeds; the produced text is exactly the
reference tree text of the listing (so every `tree` row carries the
recursively built child tree's hash); the text is byte-sized; and
parsed back into rows it corresponds one-to-one, in order, with the
non-reserved entries. -/
theorem createTreeRows_spec (store : FS) (ctr : Nat)
    (listing : List (String × FsNode))
    (hb : store.broken = []) (hnames : listNamesOk listing) :
    ∃ text store2 ctr2, createTreeRows store ctr listing = .ok (text, store2, ctr2) ∧
      store2.broken = [] ∧
      text = specTreeText listing ∧
      (∀ ch ∈ text.data, ch.toNat < 256) ∧
      List.Forall₂ entryMatches (treeRowFilter listing)
        (parseTreeLoop (splitOnChar '\n' text.data)) := by
  match listing with
  | [] =>
    refine ⟨"", store, ctr, by rw [createTreeRows], hb, by rw [specTreeText], ?_, ?_⟩
    · intro ch hch
      have h0 : ("" : String).data = [] := rfl
      rw [h0] at hch
      cases hch
    · have h0 : ("" : String).data = [] := rfl
      rw [h0]
      exact List.Forall₂.nil
  | (nm, FsNode.dir ch) :: rest =>
    obtain ⟨hnm, hnode, hrest⟩ := hnames
    by_cases hig : nm ∈ IGNORE_FOLDERS
    · obtain ⟨text, store2, ctr2, hok, hb2, htext, hbytes, hfa⟩ :=
        createTreeRows_spec store ctr rest hb hrest
      refine ⟨text, store2, ctr2, ?_, hb2, ?_, hbytes, ?_⟩
      · rw [createTreeRows, if_pos hig, hok]
      · rw [specTreeText, if_pos hig]
        exact htext
      · have hfe : treeRowFilter ((nm, FsNode.dir ch) :: rest) = treeRowFilter rest := by
          simp [treeRowFilter, List.filter_cons, hig]
        rw [hfe]
        exact hfa
    · obtain ⟨h, store2, ctr2, rows1, hok1, hb2, hhash, hlen40, hclean, _hrt, _hfa1⟩ :=
        createTreeDir_spec store ctr ch hb hnode
      obtain ⟨t, store3, ctr3, hok2, hb3, htext, hbytes, hfa⟩ :=
        createTreeRows_spec store2 ctr2 rest hb2 hrest
      have hdata : ("tree" ++ "\t" ++ h ++ "\t" ++ nm ++ "\n" ++ t).data
          = "tree".data ++ '\t' :: (h.data ++ '\t' :: (nm.data ++ '\n' :: t.data)) := by
        simp only [strData_append, List.append_assoc]
        rfl
      refine ⟨"tree" ++ "\t" ++ h ++ "\t" ++ nm ++ "\n" ++ t, store3, ctr3, ?_, hb3,
        ?_, ?_, ?_⟩
      · simp only [createTreeRows, if_neg hig, hok1, hok2]
      · rw [specTreeText, if_neg hig, hhash, htext]
      · intro c2 hc2
        rw [hdata] at hc2
        rcases List.mem_append.mp hc2 with h1 | h1
        · fin_cases h1 <;> decide
        · rcases List.mem_cons.mp h1 with h2 | h2
          · rw [h2]; decide
          · rcases List.mem_append.mp h2 with h3 | h3
            · exact (hclean _ h3).2.2
            · rcases List.mem_cons.mp h3 with h4 | h4
              · rw [h4]; decide
              · rcases List.mem_append.mp h4 with h5 | h5
                · exact (hnm _ h5).2.2
                · rcases List.mem_cons.mp h5 with h6 | h6
                  · rw [h6]; decide
                  · exact hbytes _ h6
      · rw [hdata, splitRowLine _ _ _ _ (by decide) (clean_no_newline _ hclean)
          (clean_no_newline _ hnm)]
        rw [parseTreeLoop_row _ _ _ _ _ (splitTab_row _ _ _ (by decide)
          (clean_no_tab _ hclean) (clean_no_tab _ hnm))]
        have hfe : treeRowFilter ((nm, FsNode.dir ch) :: rest)
            = (nm, FsNode.dir ch) :: treeRowFilter rest := by
          simp [treeRowFilter, List.filter_cons, hig]
        rw [hfe]
        refine List.Forall₂.cons ?_ hfa
        show entryMatches (nm, FsNode.dir ch)
          [String.mk "tree".data, String.mk h.data, String.mk nm.data]
        rw [strMk_data, strMk_data]
        show (["tree", h, nm] : List String) = ["tree", specTreeHash ch, nm]
        rw [hhash]
  | (nm, FsNode.file content) :: rest =>
    obtain ⟨hnm, _hnode, hrest⟩ := hnames
    obtain ⟨fs2, hso, hbr, _hread⟩ := storeObject_spec store content (tempFileName ctr)
      (by rw [hb]; exact List.not_mem_nil _)
    obtain ⟨t, store3, ctr3, hok2, hb3, htext, hbytes, hfa⟩ :=
      createTreeRows_spec fs2 (ctr + 1) rest (by rw [hbr, hb]) hrest
    have hclean : ∀ c2 ∈ (hexEncodeBytes (sha1Hash content)).data,
        c2 ≠ '\t' ∧ c2 ≠ '\n' ∧ c2.toNat < 256 :=
      hexEncodeBytes_clean _ (sha1Hash_bytes_lt _)
    have hdata : ("blob" ++ "\t" ++ hexEncodeBytes (sha1Hash content) ++ "\t" ++ nm
          ++ "\n" ++ t).data
        = "blob".data ++ '\t' :: ((hexEncodeBytes (sha1Hash content)).data
            ++ '\t' :: (nm.data ++ '\n' :: t.data)) := by
      simp only [strData_append, List.append_assoc]
      rfl
    refine ⟨"blob" ++ "\t" ++ hexEncodeBytes (sha1Hash content) ++ "\t" ++ nm ++ "\n" ++ t,
      store3, ctr3, ?_, hb3, ?_, ?_, ?_⟩
    · simp only [createTreeRows, hso, hok2]
    · rw [specTreeText, htext]
    · intro c2 hc2
      rw [hdata] at hc2
      rcases List.mem_append.mp hc2 with h1 | h1
      · fin_cases h1 <;> decide
      · rcases List.mem_cons.mp h1 with h2 | h2
        · rw [h2]; decide
        · rcases List.mem_append.mp h2 with h3 | h3
          · exact (hclean _ h3).2.2
          · rcases List.mem_cons.mp h3 with h4 | h4
            · rw [h4]; decide
            · rcases List.mem_append.mp h4 with h5 | h5
              · exact (hnm _ h5).2.2
              · rcases List.mem_cons.mp h5 with h6 | h6
                · rw [h6]; decide
                · exact hbytes _ h6
    · rw [hdata, splitRowLine _ _ _ _ (by decide) (clean_no_newline _ hclean)
        (clean_no_newline _ hnm)]
      rw [parseTreeLoop_row _ _ _ _ _ (splitTab_row _ _ _ (by decide)
        (clean_no_tab _ hclean) (clean_no_tab _ hnm))]
      have hfe : treeRowFilter ((nm, FsNode.file content) :: rest)
          = (nm, FsNode.file content) :: treeRowFilter rest := by
        simp [treeRowFilter, List.filter_cons]
      rw [hfe]
      refine List.Forall₂.cons ?_ hfa
      show entryMatches (nm, FsNode.file content)
        [String.mk "blob".data, String.mk (hexEncodeBytes (sha1Hash content)).data,
          String.mk nm.data]
      rw [strMk_data, strMk_data]
      rfl
termination_by (sizeOf listing, 0)

/-- Specification of `createTree` for one directory: on an unbroken
store with row-safe names it succeeds, returning exactly the
recursively built tree hash of the listing (a 40-character hex hash);
reading the stored tree object back yields rows corresponding
one-to-one with the non-reserved entries. -/
theorem createTreeDir_spec (store : FS) (ctr : Nat)
    (children : List (String × FsNode))
    (hb : store.broken = []) (hnames : listNamesOk children) :
    ∃ h store2 ctr2 rows, createTreeDir store ctr children = .ok (h, store2, ctr2) ∧
      store2.broken = [] ∧ h = specTreeHash children ∧ h.length = 40 ∧
      (∀ c2 ∈ h.data, c2 ≠ '\t' ∧ c2 ≠ '\n' ∧ c2.toNat < 256) ∧
      readTree store2 h = .ok rows ∧
      List.Forall₂ entryMatches (treeRowFilter children) rows := by
  obtain ⟨text, st2, c2, hok, hb2, htext, hbytes, hfa⟩ :=
    createTreeRows_spec store (ctr + 1) children hb hnames
  have htemp : tempFileName ctr ∉ store.broken := by
    rw [hb]
    exact List.not_mem_nil _
  have hopen : fsOpen (fsWrite st2 (tempFileName ctr) (strToBytes text))
      (tempFileName ctr) = .ok (strToBytes text) := by
    rw [fsOpen, if_neg (by rw [broken_fsWrite, hb2]; exact List.not_mem_nil _),
      fsRead_fsWrite_same]
  obtain ⟨fs2, hcb, hbr2, hread⟩ := createBlob_spec _ (tempFileName ctr)
    (tempFileName c2) (strToBytes text) hopen
    (by rw [broken_fsWrite, hb2]; exact List.not_mem_nil _)
  have hbytes2 : ∀ x ∈ strToBytes text, x < 256 := by
    intro x hx
    rcases List.mem_map.mp hx with ⟨c3, hc3, hrfl⟩
    rw [← hrfl]
    exact hbytes c3 hc3
  have hb4 : (fsRemove fs2 (tempFileName ctr)).broken = [] := by
    rw [broken_fsRemove, hbr2, broken_fsWrite, hb2]
  have h1 : getObjectPath (hexEncodeBytes (sha1Hash (strToBytes text)))
      = .ok (objectPathStr (hexEncodeBytes (sha1Hash (strToBytes text)))) :=
    getObjectPath_eq _ (by rw [hexSha1_length_forty]; omega)
  have h2 : fsOpen (fsRemove fs2 (tempFileName ctr))
      (objectPathStr (hexEncodeBytes (sha1Hash (strToBytes text))))
      = .ok (lzwEncode (strToBytes text)) := by
    rw [fsOpen, if_neg (by rw [hb4]; exact List.not_mem_nil _),
      fsRead_fsRemove_other _ _ _ (objectPathStr_ne_tempFileName _ ctr), hread]
  have h3 : readObjectFile (fsRemove fs2 (tempFileName ctr))
      (objectPathStr (hexEncodeBytes (sha1Hash (strToBytes text))))
      = .ok (strToBytes text) := by
    rw [readObjectFile, h2, orE_ok, lzw_roundtrip _ hbytes2, orO_some]
  refine ⟨hexEncodeBytes (sha1Hash (strToBytes text)), fsRemove fs2 (tempFileName ctr),
    c2 + 1, parseTreeLoop (splitOnChar '\n' text.data), ?_, hb4, ?_,
    hexSha1_length_forty _, hexEncodeBytes_clean _ (sha1Hash_bytes_lt _), ?_, hfa⟩
  · simp only [createTreeDir, if_neg htemp, hok, hcb]
  · rw [htext, specTreeHash]
  · rw [readTree, h1, orE_ok, h3, orE_ok, bytesToChars_strToBytes]
termination_by (sizeOf children, 1)

end

/-- Claim C5: building a directory's tree snapshot emits one
tab-separated, newline-terminated text row per non-reserved immediate
entry — a `{tree, childTreeHash, name}` row for each subdirectory
(build recursively) and a `{blob, blobHash, name}` row for each file —
stores the concatenated row text itself as an object and returns that
object's hash; reserved metadata directory names are skipped.  Stated
via `readTree`: the stored object parses back into exactly those rows,
in order, each blob hash the hex SHA-1 of the file's content and each
tree hash the recursively built child tree's hash (`specTreeHash`, the
content hash of the child's own row text); the returned hash is the
listing's recursively built tree hash. -/
theorem claim_C5_snapshot_rows (store : FS) (ctr : Nat)
    (listing : List (String × FsNode))
    (hb : store.broken = []) (hnames : listNamesOk listing) :
    ∃ h store2 ctr2 rows, createTreeDir store ctr listing = .ok (h, store2, ctr2) ∧
      h = specTreeHash listing ∧ h.length = 40 ∧ readTree store2 h = .ok rows ∧
      List.Forall₂ entryMatches (treeRowFilter listing) rows := by
  obtain ⟨h, s2, c2, rows, hok, _, hhash, hlen, _, hrt, hfa⟩ :=
    createTreeDir_spec store ctr listing hb hnames
  exact ⟨h, s2, c2, rows, hok, hhash, hlen, hrt, hfa⟩

/-- Witness for claim C5 at a concrete directory with a file, a
subdirectory and a reserved `.gat` directory. -/
theorem claim_C5_snapshot_rows_witness :
    ∃ h store2 ctr2 rows,
      createTreeDir ⟨[], []⟩ 0
        [("a.txt", FsNode.file [104, 105]), ("sub", FsNode.dir []),
          (".gat", FsNode.dir [])] = .ok (h, store2, ctr2) ∧
      h = specTreeHash [("a.txt", FsNode.file [104, 105]), ("sub", FsNode.dir []),
        (".gat", FsNode.dir [])] ∧
      h.length = 40 ∧ readTree store2 h = .ok rows ∧
      List.Forall₂ entryMatches
        (treeRowFilter [("a.txt", FsNode.file [104, 105]), ("sub", FsNode.dir []),
          (".gat", FsNode.dir [])]) rows :=
  claim_C5_snapshot_rows ⟨[], []⟩ 0
    [("a.txt", FsNode.file [104, 105]), ("sub", FsNode.dir []), (".gat", FsNode.dir [])]
    rfl (by simp only [listNamesOk, nodeNamesOk, nameOk]; decide)

/-- Claim C10: deriving an object's on-disk path assumes the hash has at
least two characters.  In a freshly prepared repository the branch ref
file is empty, so the current head is the empty hash; reading a commit
for it — and hence the log and revert operations — panics with a slice
out-of-range (`crashSliceRange`) instead of returning a not-found
error. -/
theorem claim_C10_empty_hash_crash :
    ∃ fs0 : FS, prepareDirs ⟨[], []⟩ = .ok fs0 ∧
      getCurrentHead fs0 = .ok "" ∧
      getObjectPath "" = .error .crashSliceRange ∧
      readCommit fs0 "" = .error .crashSliceRange ∧
      printLog fs0 5 = .error .crashSliceRange ∧
      switchToCommit ⟨fs0, []⟩ 5 "" = .error .crashSliceRange := by
  refine ⟨_, rfl, ?_, ?_, ?_, ?_, ?_⟩
  · decide
  · decide
  · decide
  · decide
  · decide
